import Mathlib

set_option maxRecDepth 40000

/- Shallow embedding of the doc-utils repository (python command-line scripts that
   convert markdown / ascii / mermaid documents to HTML and EPUB).  Strings are
   modelled as `List Char`; each Python `re.sub` pass is modelled by an executable
   scanner with the same leftmost, non-overlapping match semantics. -/

/-- Embed a Lean string literal as a list of characters. -/
def lc (s : String) : List Char := s.data

/-- Python `\s` whitespace class (ASCII range, as used by `str.strip` and `\s`). -/
def isWs (c : Char) : Bool :=
  c == ' ' || c == '\t' || c == '\n' || c == '\r' || c == '\x0b' || c == '\x0c'

/-- Python `\w` word character (modelled at ASCII granularity). -/
def isWordChar (c : Char) : Bool := c.isAlphanum || c == '_'

/-- Python `str.strip()`: remove leading and trailing whitespace. -/
def pyStrip (l : List Char) : List Char :=
  ((l.dropWhile isWs).reverse.dropWhile isWs).reverse

/-- Python `str.strip('-')`: remove leading and trailing hyphens. -/
def stripHyphens (l : List Char) : List Char :=
  ((l.dropWhile (· == '-')).reverse.dropWhile (· == '-')).reverse

/-- Python `str.split(sep)` for a single-character separator. -/
def splitOnChar (sep : Char) : List Char → List (List Char)
  | [] => [[]]
  | c :: rest =>
    if c = sep then [] :: splitOnChar sep rest
    else
      match splitOnChar sep rest with
      | l :: ls => (c :: l) :: ls
      | [] => [[c]]

/-- Split a text into its lines (Python `split('\n')`). -/
def splitOnNl (l : List Char) : List (List Char) := splitOnChar '\n' l

/-- Join lines with newlines (Python `'\n'.join`). -/
def joinNl : List (List Char) → List Char
  | [] => []
  | [l] => l
  | l :: ls => l ++ '\n' :: joinNl ls

/-- Python `str.replace` for a single-character pattern. -/
def replaceChar (c : Char) (r : List Char) : List Char → List Char
  | [] => []
  | x :: xs => if x = c then r ++ replaceChar c r xs else x :: replaceChar c r xs

/-- Substring test (`tok in s` in Python). -/
def containsTok (tok : List Char) : List Char → Bool
  | [] => tok.isEmpty
  | c :: rest => tok.isPrefixOf (c :: rest) || containsTok tok rest

/-- Split at the first occurrence of `tok`, dropping it: `some (before, after)`,
    or `none` when `tok` does not occur. -/
def splitOnTok (tok : List Char) : List Char → Option (List Char × List Char)
  | [] => none
  | c :: rest =>
    if tok.isPrefixOf (c :: rest) then some ([], (c :: rest).drop tok.length)
    else
      match splitOnTok tok rest with
      | some (a, b) => some (c :: a, b)
      | none => none

/-- Like `splitOnTok` but the part before the token may not contain a newline
    (used for the passes whose regex runs without `re.DOTALL`). -/
def splitOnTokSameLine (tok : List Char) : List Char → Option (List Char × List Char)
  | [] => none
  | c :: rest =>
    if tok.isPrefixOf (c :: rest) then some ([], (c :: rest).drop tok.length)
    else if c = '\n' then none
    else
      match splitOnTokSameLine tok rest with
      | some (a, b) => some (c :: a, b)
      | none => none

/-- One `re.sub` scan: try a match at every position from the left; on a match
    emit the replacement and continue after the consumed text, otherwise copy one
    character.  The fuel argument (initialised with the length of the input) only
    serves structural recursion; every matcher used below consumes at least one
    character per match, so the fuel never runs out. -/
def subScanF (tryAt : List Char → Option (List Char × List Char)) :
    Nat → List Char → List Char
  | 0, l => l
  | _ + 1, [] => []
  | fuel + 1, c :: cs =>
    match tryAt (c :: cs) with
    | some (r, rest) => r ++ subScanF tryAt fuel rest
    | none => c :: subScanF tryAt fuel cs

/-- Python `re.sub(pattern, repl, s)` with a matcher `tryAt` that implements
    the pattern at the head of the remaining input. -/
def subScan (tryAt : List Char → Option (List Char × List Char)) (l : List Char) :
    List Char := subScanF tryAt l.length l

/-- A `re.MULTILINE` pass whose pattern is anchored with `^...$` rewrites each
    line independently. -/
def subLines (f : List Char → List Char) (s : List Char) : List Char :=
  joinNl ((splitOnNl s).map f)

/-- Matcher for the literal-token replacement `s.replace(pat, repl)`. -/
def tryTokRepl (pat repl : List Char) (l : List Char) :
    Option (List Char × List Char) :=
  if pat.isPrefixOf l then some (repl, l.drop pat.length) else none

/-- Python `s.replace(pat, repl)` for a multi-character pattern. -/
def replaceTok (pat repl : List Char) (l : List Char) : List Char :=
  subScan (tryTokRepl pat repl) l

example : splitOnNl (lc "a\nbc\n") = [lc "a", lc "bc", []] := by decide
example : pyStrip (lc "  a b\t") = lc "a b" := by decide
example : splitOnTok (lc "ab") (lc "xaabz") = some (lc "xa", lc "z") := by decide
example : replaceTok (lc "ab") (lc "Y") (lc "cababd") = lc "cYYd" := by decide
example : replaceChar '&' (lc "&amp;") (lc "a&b") = lc "a&amp;b" := by decide

/- The helper functions shared verbatim by generate_kindle.py,
   utils/generate_html_flexible.py and src/generate_html_flexible.py. -/

/-- Matcher for `re.sub(r'<[^>]+>', '', text)`: an HTML tag is removed. -/
def tryStripTag (l : List Char) : Option (List Char × List Char) :=
  match l with
  | '<' :: rest =>
    let inner := rest.takeWhile (· != '>')
    if inner.isEmpty then none
    else
      match rest.drop inner.length with
      | '>' :: rest2 => some ([], rest2)
      | _ => none
  | _ => none

/-- Matcher for `re.sub(r'[-\s]+', '-', text)`: a run of hyphens or whitespace
    collapses to a single hyphen. -/
def tryCollapse (l : List Char) : Option (List Char × List Char) :=
  match l with
  | c :: _ =>
    if c = '-' || isWs c then some ([ '-' ], l.dropWhile (fun d => d == '-' || isWs d))
    else none
  | [] => none

/-- `create_anchor_id` from generate_kindle.py: strip HTML tags, lowercase,
    drop every character that is not a word character, whitespace or hyphen,
    collapse hyphen/whitespace runs to single hyphens, strip outer hyphens. -/
def create_anchor_id (text : List Char) : List Char :=
  let t1 := subScan tryStripTag text
  let t2 := t1.map Char.toLower
  let t3 := t2.filter (fun c => isWordChar c || isWs c || c == '-')
  let t4 := subScan tryCollapse t3
  stripHyphens t4

/-- `escape_html`: `text.replace('&','&amp;').replace('<','&lt;').replace('>','&gt;')`. -/
def escape_html (text : List Char) : List Char :=
  replaceChar '>' (lc "&gt;") (replaceChar '<' (lc "&lt;") (replaceChar '&' (lc "&amp;") text))

/-- Search for `re.search(r'\d+\.\s', content)`: some digit immediately followed
    by a period and a whitespace character. -/
def hasNumDotWs : List Char → Bool
  | a :: b :: c :: rest => (a.isDigit && b == '.' && isWs c) || hasNumDotWs (b :: c :: rest)
  | _ => false

/-- `wrap_list_items`: wrap a run of `<li>` items in `<ol>` if the run's text
    still contains a digit-period-whitespace pattern, else in `<ul>`. -/
def wrap_list_items (content : List Char) : List Char :=
  if hasNumDotWs content then lc "<ol>" ++ content ++ lc "</ol>"
  else lc "<ul>" ++ content ++ lc "</ul>"

/-- The tag list of `is_html_block`. -/
def htmlBlockTags : List (List Char) :=
  [lc "<div", lc "<section", lc "<article", lc "<header", lc "<footer", lc "<nav",
   lc "<aside", lc "<main", lc "<pre", lc "<blockquote", lc "<ul", lc "<ol", lc "<li",
   lc "<table", lc "<tr", lc "<td", lc "<th"]

/-- `is_html_block`: the stripped text starts with a block-level tag. -/
def is_html_block (text : List Char) : Bool :=
  htmlBlockTags.any (fun tag => tag.isPrefixOf (pyStrip text))

/-- The tag list of `contains_block_elements`. -/
def blockElementTags : List (List Char) :=
  [lc "<h1", lc "<h2", lc "<h3", lc "<h4", lc "<h5", lc "<h6", lc "<div", lc "<section",
   lc "<pre", lc "<blockquote", lc "<ul", lc "<ol", lc "<table"]

/-- `contains_block_elements`: the text contains a block-level tag. -/
def contains_block_elements (text : List Char) : Bool :=
  blockElementTags.any (fun tag => containsTok tag text)

/- Matchers for the individual regex passes of `simple_markdown_to_html`. -/

/-- A repeated string of `k` hash characters. -/
def hashes (k : Nat) : List Char := List.replicate k '#'

/-- Header pass (kindle / flexible variant): `^#..# (.*?)$` with an anchor id. -/
def headerLine (k : Nat) (line : List Char) : List Char :=
  if (hashes k ++ [' ']).isPrefixOf line then
    let t := line.drop (k + 1)
    lc ("<h" ++ toString k ++ " id=\"") ++ create_anchor_id t ++ lc "\">" ++ t ++
      lc ("</h" ++ toString k ++ ">")
  else line

/-- Header pass of utils/generate_html.py: `^#..# (.*?)$` without an id. -/
def headerLineNoId (k : Nat) (line : List Char) : List Char :=
  if (hashes k ++ [' ']).isPrefixOf line then
    lc ("<h" ++ toString k ++ ">") ++ line.drop (k + 1) ++ lc ("</h" ++ toString k ++ ">")
  else line

/-- Matcher for ```` ```(\w+)?\n(.*?)\n``` ```` (with `re.DOTALL`); the
    replacement is produced by `mkRepl lang content`. -/
def tryFence (mkRepl : List Char → List Char → List Char) (l : List Char) :
    Option (List Char × List Char) :=
  if (lc "```").isPrefixOf l then
    let l1 := l.drop 3
    let lang := l1.takeWhile isWordChar
    match l1.drop lang.length with
    | '\n' :: body =>
      match splitOnTok (lc "\n```") body with
      | some (content, rest) => some (mkRepl lang content, rest)
      | none => none
    | _ => none
  else none

/-- Fenced code block replacement of the kindle / flexible converter. -/
def fenceRepl (lang content : List Char) : List Char :=
  lc "<pre><code class=\"language-" ++ (if lang.isEmpty then lc "text" else lang) ++
    lc "\">" ++ escape_html content ++ lc "</code></pre>"

/-- Fenced code block replacement of utils/generate_html.py (`<pre><code>\2</code></pre>`). -/
def fenceReplPlain (lang content : List Char) : List Char :=
  let _ := lang
  lc "<pre><code>" ++ content ++ lc "</code></pre>"

/-- Matcher for inline code `` `([^`]+)` ``. -/
def tryInlineCode (l : List Char) : Option (List Char × List Char) :=
  match l with
  | '`' :: rest =>
    let content := rest.takeWhile (· != '`')
    if content.isEmpty then none
    else
      match rest.drop content.length with
      | '`' :: rest2 => some (lc "<code>" ++ content ++ lc "</code>", rest2)
      | _ => none
  | _ => none

/-- Matcher for an emphasis pass `DELIM(.*?)DELIM` (no `re.DOTALL`): the content
    must stay on one line.  `opn`/`cls` build the replacement. -/
def tryDelim (delim opn cls : List Char) (l : List Char) :
    Option (List Char × List Char) :=
  if delim.isPrefixOf l then
    match splitOnTokSameLine delim (l.drop delim.length) with
    | some (content, rest) => some (opn ++ content ++ cls, rest)
    | none => none
  else none

/-- Matcher for links `\[([^\]]+)\]\(([^)]+)\)`. -/
def tryLink (l : List Char) : Option (List Char × List Char) :=
  match l with
  | '[' :: rest =>
    let txt := rest.takeWhile (· != ']')
    if txt.isEmpty then none
    else
      match rest.drop txt.length with
      | ']' :: '(' :: rest2 =>
        let url := rest2.takeWhile (· != ')')
        if url.isEmpty then none
        else
          match rest2.drop url.length with
          | ')' :: rest3 =>
            some (lc "<a href=\"" ++ url ++ lc "\">" ++ txt ++ lc "</a>", rest3)
          | _ => none
      | _ => none
  | _ => none

/-- Numbered list line: `^(\d+)\. (.*?)$` becomes `<li>\2</li>`. -/
def numberedLine (line : List Char) : List Char :=
  let ds := line.takeWhile Char.isDigit
  if ds.isEmpty then line
  else if (lc ". ").isPrefixOf (line.drop ds.length) then
    lc "<li>" ++ line.drop (ds.length + 2) ++ lc "</li>"
  else line

/-- Bullet list line: `^[-*+] (.*?)$` becomes `<li>\1</li>`. -/
def bulletLine (line : List Char) : List Char :=
  match line with
  | c :: ' ' :: rest =>
    if c = '-' || c = '*' || c = '+' then lc "<li>" ++ rest ++ lc "</li>" else line
  | _ => line

/-- Dash-only bullet line of utils/generate_html.py: `^- (.*?)$`. -/
def dashLine (line : List Char) : List Char :=
  match line with
  | '-' :: ' ' :: rest => lc "<li>" ++ rest ++ lc "</li>"
  | _ => line

/-- Blockquote line: `^> (.*?)$`. -/
def blockquoteLine (line : List Char) : List Char :=
  if (lc "> ").isPrefixOf line then
    lc "<blockquote>" ++ line.drop 2 ++ lc "</blockquote>"
  else line

/-- Horizontal rule line: `^---+$` becomes `<hr>`. -/
def hrLine (line : List Char) : List Char :=
  if 3 ≤ line.length && line.all (· == '-') then lc "<hr>" else line

/-- Matcher for a single `<li>.*?</li>` item (used by the list-wrapping pass
    of both converter variants). -/
def tryLiItem (l : List Char) : Option (List Char × List Char) :=
  if (lc "<li>").isPrefixOf l then
    match splitOnTok (lc "</li>") (l.drop 4) with
    | some (content, rest) => some (lc "<li>" ++ content ++ lc "</li>", rest)
    | none => none
  else none

/-- The star `(?:\s*<li>.*?</li>)*` of the list-wrapping regex: greedily absorb
    further whitespace-separated items; returns the absorbed text and the rest. -/
def liStarF : Nat → List Char → List Char × List Char
  | 0, l => ([], l)
  | fuel + 1, l =>
    let ws := l.takeWhile isWs
    match tryLiItem (l.drop ws.length) with
    | some (item, rest) =>
      if rest.length < l.length then
        let (more, rest2) := liStarF fuel rest
        (ws ++ item ++ more, rest2)
      else (ws ++ item, rest)
    | none => ([], l)

/-- Entry point of the star loop. -/
def liStar (l : List Char) : List Char × List Char := liStarF l.length l

/-- Matcher for `(<li>.*?</li>(?:\s*<li>.*?</li>)*)` replaced through
    `wrap_list_items`. -/
def tryWrap (l : List Char) : Option (List Char × List Char) :=
  match tryLiItem l with
  | some (item, rest) =>
    let (more, rest2) := liStar rest
    some (wrap_list_items (item ++ more), rest2)
  | none => none

/-- Matcher for `re.sub(r'(<li>.*?</li>)', r'<ul>\1</ul>', ...)` of
    utils/generate_html.py: each single item is wrapped on its own. -/
def tryWrapSingle (l : List Char) : Option (List Char × List Char) :=
  match tryLiItem l with
  | some (item, rest) => some (lc "<ul>" ++ item ++ lc "</ul>", rest)
  | none => none

/- `convert_tables` (shared verbatim by the three flexible converters). -/

/-- A markdown table line: contains a pipe and the stripped line starts and
    ends with a pipe. -/
def isTableLine (line : List Char) : Bool :=
  line.contains '|' && (lc "|").isPrefixOf (pyStrip line) &&
    (pyStrip line).getLast? == some '|'

/-- A separator line `re.match(r'^\|[-:\s|]+\|$', line.strip())`. -/
def isSepLine (line : List Char) : Bool :=
  let t := pyStrip line
  decide (3 ≤ t.length) && t.head? == some '|' && t.getLast? == some '|' &&
    ((t.drop 1).dropLast.all fun c => c == '-' || c == ':' || isWs c || c == '|')

/-- The cell texts of a table line: `[cell.strip() for cell in line.strip().split('|')[1:-1]]`. -/
def tableCells (line : List Char) : List (List Char) :=
  (((splitOnChar '|' (pyStrip line)).drop 1).dropLast).map pyStrip

/-- The output lines contributed by a table row (separator lines are skipped). -/
def rowLines (line : List Char) : List (List Char) :=
  if isSepLine line then []
  else lc "<tr>" :: ((tableCells line).map fun c => lc "<td>" ++ (c ++ lc "</td>")) ++ [lc "</tr>"]

/-- The output lines of a table header row. -/
def headLines (line : List Char) : List (List Char) :=
  [lc "<table>", lc "<thead>", lc "<tr>"] ++
    ((tableCells line).map fun c => lc "<th>" ++ (c ++ lc "</th>")) ++
    [lc "</tr>", lc "</thead>", lc "<tbody>"]

/-- The lookahead `i + 1 < len(lines) and re.match(sep, lines[i+1].strip())`. -/
def lookaheadSep : List (List Char) → Bool
  | next :: _ => isSepLine next
  | [] => false

/-- The line loop of `convert_tables`, carrying the `in_table` flag; the
    lookahead for the separator line inspects the head of the remaining lines. -/
def convertTablesGo : List (List Char) → Bool → List (List Char)
  | [], inTable => if inTable then [lc "</tbody>", lc "</table>"] else []
  | line :: rest, inTable =>
    if isTableLine line then
      if inTable then rowLines line ++ convertTablesGo rest true
      else if lookaheadSep rest then
        headLines line ++ convertTablesGo rest true
      else
        [lc "<table>", lc "<tbody>"] ++ rowLines line ++ convertTablesGo rest true
    else
      (if inTable then [lc "</tbody>", lc "</table>"] else []) ++
        line :: convertTablesGo rest false

/-- `convert_tables`: split into lines, run the table state machine, re-join. -/
def convert_tables (html : List Char) : List Char :=
  joinNl (convertTablesGo (splitOnNl html) false)

/- The final paragraph pass. -/

/-- Python `html.split('\n\n')` (leftmost, non-overlapping). -/
def splitParasF : Nat → List Char → List (List Char)
  | 0, l => [l]
  | fuel + 1, l =>
    match splitOnTok (lc "\n\n") l with
    | some (a, b) => a :: splitParasF fuel b
    | none => [l]

/-- Split a text into paragraphs at blank lines. -/
def splitParas (l : List Char) : List (List Char) := splitParasF l.length l

/-- Paragraph treatment of the kindle / flexible converter: strip, and wrap in
    `<p>` unless the paragraph looks like (or contains) block HTML. -/
def paraF (para : List Char) : List Char :=
  let p := pyStrip para
  if !p.isEmpty && !((lc "<").isPrefixOf p) && !((lc "<!--").isPrefixOf p) &&
      !(is_html_block p) then
    if !(contains_block_elements p) then lc "<p>" ++ p ++ lc "</p>" else p
  else p

/-- Paragraph treatment of utils/generate_html.py (no block-element checks). -/
def paraFPlain (para : List Char) : List Char :=
  let p := pyStrip para
  if !p.isEmpty && !((lc "<").isPrefixOf p) && !((lc "<!--").isPrefixOf p) then
    lc "<p>" ++ p ++ lc "</p>"
  else p

/-- Rebuild the text from the treated paragraphs (Python `'\n\n'.join`). -/
def joinParas : List (List Char) → List Char
  | [] => []
  | [l] => l
  | l :: ls => l ++ '\n' :: '\n' :: joinParas ls

namespace GenerateKindle

/-- `simple_markdown_to_html` of src/utils/generate_kindle.py: the chain of
    regex passes in source order (headers h1–h5, fenced code, inline code,
    bold italic, bold, italic, links, numbered lists, bullet lists, list
    wrapping, blockquotes, horizontal rules, tables, paragraphs). -/
def simple_markdown_to_html (s : List Char) : List Char :=
  joinParas ((splitParas (convert_tables (subLines hrLine (subLines blockquoteLine
    (subScan tryWrap (subLines bulletLine (subLines numberedLine
      (subScan tryLink
        (subScan (tryDelim (lc "*") (lc "<em>") (lc "</em>"))
          (subScan (tryDelim (lc "**") (lc "<strong>") (lc "</strong>"))
            (subScan (tryDelim (lc "***") (lc "<strong><em>") (lc "</em></strong>"))
              (subScan tryInlineCode
                (subScan (tryFence fenceRepl)
                  (subLines (headerLine 5) (subLines (headerLine 4)
                    (subLines (headerLine 3) (subLines (headerLine 2)
                      (subLines (headerLine 1) s)))))))))))))))))).map paraF)

end GenerateKindle

namespace UtilsGenerateHtmlFlexible

/-- `simple_markdown_to_html` of src/utils/generate_html_flexible.py (a verbatim
    copy of the generate_kindle.py converter). -/
def simple_markdown_to_html (s : List Char) : List Char :=
  joinParas ((splitParas (convert_tables (subLines hrLine (subLines blockquoteLine
    (subScan tryWrap (subLines bulletLine (subLines numberedLine
      (subScan tryLink
        (subScan (tryDelim (lc "*") (lc "<em>") (lc "</em>"))
          (subScan (tryDelim (lc "**") (lc "<strong>") (lc "</strong>"))
            (subScan (tryDelim (lc "***") (lc "<strong><em>") (lc "</em></strong>"))
              (subScan tryInlineCode
                (subScan (tryFence fenceRepl)
                  (subLines (headerLine 5) (subLines (headerLine 4)
                    (subLines (headerLine 3) (subLines (headerLine 2)
                      (subLines (headerLine 1) s)))))))))))))))))).map paraF)

end UtilsGenerateHtmlFlexible

namespace SrcGenerateHtmlFlexible

/-- `simple_markdown_to_html` of src/src/generate_html_flexible.py (a verbatim
    copy of the generate_kindle.py converter). -/
def simple_markdown_to_html (s : List Char) : List Char :=
  joinParas ((splitParas (convert_tables (subLines hrLine (subLines blockquoteLine
    (subScan tryWrap (subLines bulletLine (subLines numberedLine
      (subScan tryLink
        (subScan (tryDelim (lc "*") (lc "<em>") (lc "</em>"))
          (subScan (tryDelim (lc "**") (lc "<strong>") (lc "</strong>"))
            (subScan (tryDelim (lc "***") (lc "<strong><em>") (lc "</em></strong>"))
              (subScan tryInlineCode
                (subScan (tryFence fenceRepl)
                  (subLines (headerLine 5) (subLines (headerLine 4)
                    (subLines (headerLine 3) (subLines (headerLine 2)
                      (subLines (headerLine 1) s)))))))))))))))))).map paraF)

end SrcGenerateHtmlFlexible

namespace UtilsGenerateHtml

/-- `simple_markdown_to_html` of src/utils/generate_html.py: the reduced
    variant (headers h1–h4 without ids, unescaped code blocks, inline code,
    bold, italic, dash-only lists each wrapped in its own `<ul>`, plain
    paragraph wrapping; no links, blockquotes, rules or tables). -/
def simple_markdown_to_html (s : List Char) : List Char :=
  joinParas ((splitParas
    (subScan tryWrapSingle (subLines dashLine
      (subScan (tryDelim (lc "*") (lc "<em>") (lc "</em>"))
        (subScan (tryDelim (lc "**") (lc "<strong>") (lc "</strong>"))
          (subScan tryInlineCode
            (subScan (tryFence fenceReplPlain)
              (subLines (headerLineNoId 4) (subLines (headerLineNoId 3)
                (subLines (headerLineNoId 2) (subLines (headerLineNoId 1) s))))))))))).map paraFPlain)

end UtilsGenerateHtml

/-- Unescaping of `&lt;`, `&gt;`, `&amp;` (in that order, the ampersand last),
    the inverse direction of the round-trip stated by the specification. -/
def unescape_html (t : List Char) : List Char :=
  replaceTok (lc "&amp;") (lc "&")
    (replaceTok (lc "&gt;") (lc ">") (replaceTok (lc "&lt;") (lc "<") t))

/-- Checker for balanced tag lines: scanning the line list left to right, a
    `closeTag` line must always have a pending `openTag` line, and at the end no
    `openTag` may stay open.  `d` is the number of currently open tags. -/
def tagBalanceOk (openTag closeTag : List Char) : List (List Char) → Nat → Bool
  | [], d => d == 0
  | x :: xs, d =>
    if x = openTag then tagBalanceOk openTag closeTag xs (d + 1)
    else if x = closeTag then d != 0 && tagBalanceOk openTag closeTag xs (d - 1)
    else tagBalanceOk openTag closeTag xs d

/- src/src/convert_mermaid_to_html.py -/

/-- Matcher for the first findall pattern ```` ```mermaid\n(.*?)\n``` ````. -/
def tryMermaidStrict (l : List Char) : Option (List Char × List Char) :=
  if (lc "```mermaid\n").isPrefixOf l then
    splitOnTok (lc "\n```") (l.drop 11)
  else none

/-- Closing fence search for the second pattern: `(.*?)\r?\n\x60\x60\x60`. -/
def splitOnFenceCR : List Char → Option (List Char × List Char)
  | [] => none
  | c :: rest =>
    if (lc "\r\n```").isPrefixOf (c :: rest) then some ([], (c :: rest).drop 5)
    else if (lc "\n```").isPrefixOf (c :: rest) then some ([], (c :: rest).drop 4)
    else
      match splitOnFenceCR rest with
      | some (a, b) => some (c :: a, b)
      | none => none

/-- Matcher for the second findall pattern ```` ```mermaid\r?\n(.*?)\r?\n``` ````. -/
def tryMermaidCR (l : List Char) : Option (List Char × List Char) :=
  if (lc "```mermaid").isPrefixOf l then
    match l.drop 10 with
    | '\r' :: '\n' :: body => splitOnFenceCR body
    | '\n' :: body => splitOnFenceCR body
    | _ => none
  else none

/-- `re.findall`: collect the group of every leftmost, non-overlapping match. -/
def findAllF (tryAt : List Char → Option (List Char × List Char)) :
    Nat → List Char → List (List Char)
  | 0, _ => []
  | _ + 1, [] => []
  | fuel + 1, c :: cs =>
    match tryAt (c :: cs) with
    | some (g, rest) => g :: findAllF tryAt fuel rest
    | none => findAllF tryAt fuel cs

/-- Run a findall scan over a whole text. -/
def findAllMatches (tryAt : List Char → Option (List Char × List Char))
    (l : List Char) : List (List Char) := findAllF tryAt l.length l

/-- `extract_mermaid_from_markdown`: try the strict pattern first and fall back
    to the `\r`-tolerant one. -/
def extract_mermaid_from_markdown (content : List Char) : List (List Char) :=
  let m1 := findAllMatches tryMermaidStrict content
  if m1.isEmpty then findAllMatches tryMermaidCR content else m1

/-- One markdown file as seen by the per-file loop of `convert_mermaid_files`:
    its stem and the result of reading it (`Except.error` models the exception
    raised while processing this file). -/
structure MermaidFile where
  stem : String
  read : Except String (List Char)

/-- The html file written for one input file, if any: a read error is caught
    and skipped, a file without mermaid diagrams is skipped with a warning. -/
def mermaidOutput (f : MermaidFile) : Option String :=
  match f.read with
  | .error _ => none
  | .ok content =>
    if (extract_mermaid_from_markdown content).isEmpty then none
    else some (f.stem ++ ".html")

/-- The per-file loop of `convert_mermaid_files` (src/convert_mermaid_to_html.py):
    the body of the loop is wrapped in try/except, an error prints a message and
    `continue`s; the function returns the written files and whether any file was
    converted (its `True`/`False` result). -/
def convert_mermaid_files (files : List MermaidFile) : List String × Bool :=
  let converted := files.foldl (fun acc f =>
    match f.read with
    | .error _ => acc
    | .ok content =>
      if (extract_mermaid_from_markdown content).isEmpty then acc
      else acc ++ [f.stem ++ ".html"]) []
  (converted, !converted.isEmpty)

/-- One ascii file as seen by the per-file loop of `convert_ascii_to_html`
    (src/convert_ascii_to_html.py): its stem and the result of reading it
    (`Except.error` models the exception raised while processing this file). -/
structure AsciiFile where
  stem : String
  read : Except String (List Char)

/-- The html file written for one ascii input, if any: an error is caught by
    the loop's try/except and the file is skipped; a file whose content strips
    to nothing is skipped with a warning. -/
def asciiOutput (f : AsciiFile) : Option String :=
  match f.read with
  | .error _ => none
  | .ok content =>
    if (pyStrip content).isEmpty then none
    else some (f.stem ++ ".html")

/-- The per-file loop of `convert_ascii_to_html` (src/convert_ascii_to_html.py
    lines 503-544): each iteration is wrapped in try/except, an error prints a
    message and the loop continues; returns the created html files
    (`diagrams_info` filenames) and `converted_count`, which the success path
    increments together. -/
def convert_ascii_to_html_files (files : List AsciiFile) : List String × Nat :=
  let info := files.foldl (fun acc f =>
    match f.read with
    | .error _ => acc
    | .ok content =>
      if (pyStrip content).isEmpty then acc
      else acc ++ [f.stem ++ ".html"]) []
  (info, info.length)

/-- One markdown file as seen by the read loop of `create_master_volume`'s
    `main` (src/create_master_volume.py): its path and the result of reading
    it. -/
structure VolumeFile where
  path : String
  read : Except String (List Char)

/-- The `file_contents` entry contributed by one file, if any: a read error is
    caught with a warning and the file skipped; so is a file that is empty or
    whose stripped content is shorter than 10 characters. -/
def volumeContent (f : VolumeFile) : Option (String × List Char) :=
  match f.read with
  | .error _ => none
  | .ok content =>
    if content.isEmpty || decide ((pyStrip content).length < 10) then none
    else some (f.path, content)

/-- The read loop of `create_master_volume.py` `main` (lines 360-370): each
    file is read inside try/except, a failure prints a warning and the loop
    continues; afterwards `main` calls `sys.exit(1)` exactly when
    `file_contents` stayed empty (the second component). -/
def master_volume_read_files (files : List VolumeFile) :
    List (String × List Char) × Bool :=
  let contents := files.foldl (fun acc f =>
    match f.read with
    | .error _ => acc
    | .ok content =>
      if content.isEmpty || decide ((pyStrip content).length < 10) then acc
      else acc ++ [(f.path, content)]) []
  (contents, contents.isEmpty)

/- Top-level error handling of the eight scripts on a missing named input. -/

/-- Outcome of a script process: the console messages and the exit status. -/
structure RunResult where
  messages : List String
  exit : Nat
deriving DecidableEq

/-- src/confluence_to_markdown.py: `convert_page` wraps the conversion in
    try/except; a failure prints `Error during conversion:` and calls
    `sys.exit(1)`. -/
def confluence_to_markdown_run (pageAccessible : Bool) : RunResult :=
  if pageAccessible then { messages := ["Conversion completed successfully!"], exit := 0 }
  else { messages := ["Error during conversion: ..."], exit := 1 }

/-- src/convert_ascii_to_html.py: a missing input folder prints
    `Input folder not found` and returns from `convert_ascii_to_html`; `main`
    then falls through and the process exits normally. -/
def convert_ascii_to_html_run (inputFolderExists : Bool) : RunResult :=
  if inputFolderExists then { messages := ["Conversion complete!"], exit := 0 }
  else { messages := ["Input folder not found: ..."], exit := 0 }

/-- src/convert_mermaid_to_html.py: a missing input folder makes
    `convert_mermaid_files` return `False` and `main` calls `sys.exit(1)`. -/
def convert_mermaid_to_html_run (inputFolderExists : Bool) : RunResult :=
  if inputFolderExists then { messages := ["Conversion complete!"], exit := 0 }
  else { messages := ["Error: Input folder does not exist"], exit := 1 }

/-- src/create_master_volume.py: a missing chapter directory prints
    `Directory not found` and calls `sys.exit(1)`. -/
def create_master_volume_run (dirExists : Bool) : RunResult :=
  if dirExists then { messages := ["Master volume creation complete!"], exit := 0 }
  else { messages := ["Directory not found: ..."], exit := 1 }

/-- src/utils/generate_kindle.py: a missing input file prints `File not found`
    and calls `sys.exit(1)`. -/
def generate_kindle_run (inputExists : Bool) : RunResult :=
  if inputExists then { messages := ["Success! EPUB file created"], exit := 0 }
  else { messages := ["File not found: ..."], exit := 1 }

/-- src/utils/generate_html_flexible.py: `read_single_file` prints
    `Error: File ... does not exist` and returns `None`; `main` then just
    returns, so the process exits with status 0. -/
def utils_generate_html_flexible_run (inputExists : Bool) : RunResult :=
  if inputExists then { messages := ["HTML file generated successfully"], exit := 0 }
  else { messages := ["Error: File ... does not exist"], exit := 0 }

/-- src/src/generate_html_flexible.py: same `read_single_file` / bare `return`
    control flow as the utils copy. -/
def src_generate_html_flexible_run (inputExists : Bool) : RunResult :=
  if inputExists then { messages := ["HTML file generated successfully"], exit := 0 }
  else { messages := ["Error: File ... does not exist"], exit := 0 }

/-- src/utils/generate_html.py: when the hard-coded guideline files are missing
    it prints warnings and `No markdown content found!` and returns, exiting
    with status 0. -/
def utils_generate_html_run (inputExists : Bool) : RunResult :=
  if inputExists then { messages := ["HTML file generated successfully"], exit := 0 }
  else { messages := ["Warning: ... not found", "No markdown content found!"], exit := 0 }

/-- The outcome of every script on a missing named input. -/
def missing_input_runs : List (String × RunResult) :=
  [("confluence_to_markdown", confluence_to_markdown_run false),
   ("convert_ascii_to_html", convert_ascii_to_html_run false),
   ("convert_mermaid_to_html", convert_mermaid_to_html_run false),
   ("create_master_volume", create_master_volume_run false),
   ("generate_kindle", generate_kindle_run false),
   ("utils_generate_html_flexible", utils_generate_html_flexible_run false),
   ("src_generate_html_flexible", src_generate_html_flexible_run false),
   ("utils_generate_html", utils_generate_html_run false)]

/- src/src/create_master_volume.py, chapter ordering with `--order-file`. -/

/-- `sorted(...)` over file names (Python sorts paths lexicographically). -/
def sortedFileNames (files : List String) : List String :=
  files.mergeSort (fun a b => a ≤ b)

/-- The chapter sequence computed by `main` of create_master_volume.py when an
    order file is given: for each listed filename take the first matching
    discovered file (warn and skip when absent), then append the discovered
    files whose names are not in the order list, sorted; an empty order list
    falls back to plain sorting. -/
def master_volume_chapter_order (markdownFiles orderedFilenames : List String) :
    List String :=
  if !orderedFilenames.isEmpty then
    let orderedFiles := orderedFilenames.foldl (fun acc filename =>
      match markdownFiles.filter (fun f => f == filename) with
      | [] => acc
      | m :: _ => acc ++ [m]) []
    let remaining := markdownFiles.filter (fun f => !orderedFilenames.contains f)
    orderedFiles ++ sortedFileNames remaining
  else sortedFileNames markdownFiles

/-- The chapter sequence as the claim words it: the listed filenames that match
    discovered files in listed order, followed by the unlisted discovered files
    in sorted order. -/
def master_volume_chapter_order_spec (markdownFiles orderedFilenames : List String) :
    List String :=
  (orderedFilenames.filterMap fun n => (markdownFiles.filter (fun f => f == n)).head?) ++
    sortedFileNames (markdownFiles.filter fun f => !orderedFilenames.contains f)

/-- Plain header text: letters, digits, spaces, hyphens and underscores — text
    that none of the converter's other regex passes rewrites. -/
def c3SafeChar (c : Char) : Bool :=
  c.isAlpha || c.isDigit || c == ' ' || c == '-' || c == '_'

/-- Plain code-block text: the safe header alphabet extended with the three
    characters rewritten by `escape_html`. -/
def c2SafeChar (c : Char) : Bool :=
  c3SafeChar c || c == '&' || c == '<' || c == '>'

/-- The per-character effect of `escape_html`. -/
def escPerChar (c : Char) : List Char :=
  if c = '&' then lc "&amp;"
  else if c = '<' then lc "&lt;"
  else if c = '>' then lc "&gt;" else [c]

/-- `escPerChar` after unescaping `&lt;`. -/
def escPerChar2 (c : Char) : List Char :=
  if c = '&' then lc "&amp;" else if c = '>' then lc "&gt;" else [c]

/-- `escPerChar` after unescaping `&lt;` and `&gt;`. -/
def escPerChar3 (c : Char) : List Char :=
  if c = '&' then lc "&amp;" else [c]

/-- Concatenation of a per-character block map over a string. -/
def blockConcat (g : Char → List Char) : List Char → List Char
  | [] => []
  | x :: xs => g x ++ blockConcat g xs

/-- Trailing output lines of a wrapped list: one `<li>` line per item, the
    closing `</ul>` attached to the last line. -/
def c9Mid : List (List Char) → List (List Char)
  | [] => []
  | [t] => [lc "<li>" ++ t ++ lc "</li>" ++ lc "</ul>"]
  | t :: ts => (lc "<li>" ++ t ++ lc "</li>") :: c9Mid ts

/-- All output lines of a wrapped list: the opening `<ul>` attached to the
    first line. -/
def c9AllLines (t : List Char) (ts : List (List Char)) : List (List Char) :=
  match ts with
  | [] => [lc "<ul>" ++ (lc "<li>" ++ t ++ lc "</li>") ++ lc "</ul>"]
  | _ => (lc "<ul>" ++ (lc "<li>" ++ t ++ lc "</li>")) :: c9Mid ts

/-- The six table-structure tag lines emitted by `convert_tables`. -/
def tableTagLines : List (List Char) :=
  [lc "<table>", lc "</table>", lc "<thead>", lc "</thead>", lc "<tbody>", lc "</tbody>"]

/-- No two consecutive occurrences of the character `c`. -/
def noDoubleChar (c : Char) : List Char → Bool
  | a :: b :: rest => !(a == c && b == c) && noDoubleChar c (b :: rest)
  | _ => true

/-- The normal form claimed for `create_anchor_id` output: only lowercase word
    characters and single (non-consecutive) hyphens, and no hyphen at either
    end. -/
def normalizedSlug (l : List Char) : Bool :=
  l.all (fun c => (isWordChar c && !c.isUpper) || c == '-') &&
    noDoubleChar '-' l && l.head? != some '-' && l.getLast? != some '-'

/-- A matcher consumes at least one character per match (the successor list is
    never longer than the scanned tail); all matchers above satisfy this. -/
def Consumes (tryAt : List Char → Option (List Char × List Char)) : Prop :=
  ∀ c cs r rest, tryAt (c :: cs) = some (r, rest) → rest.length ≤ cs.length

example : create_anchor_id (lc "Hello,  World! --x--") = lc "hello-world-x" := by decide
example : create_anchor_id (lc "<b>T</b>__a") = lc "t__a" := by decide
example : GenerateKindle.simple_markdown_to_html (lc "## My Header 2")
    = lc "<h2 id=\"my-header-2\">My Header 2</h2>" := by decide
example : GenerateKindle.simple_markdown_to_html (lc "```\n*hi*\n```")
    = lc "<pre><code class=\"language-text\"><em>hi</em></code></pre>" := by decide
example : GenerateKindle.simple_markdown_to_html (lc "```\nx<y & z\nsecond line\n```")
    = lc "<pre><code class=\"language-text\">x&lt;y &amp; z\nsecond line</code></pre>" := by
  decide
example : GenerateKindle.simple_markdown_to_html (lc "1. alpha\n2. beta two\n3. gamma")
    = lc "<ul><li>alpha</li>\n<li>beta two</li>\n<li>gamma</li></ul>" := by decide
example : GenerateKindle.simple_markdown_to_html (lc "# A") = lc "<h1 id=\"a\">A</h1>" := by
  decide
example : UtilsGenerateHtml.simple_markdown_to_html (lc "# A") = lc "<h1>A</h1>" := by decide

/- Generic lemmas: line splitting and joining. -/

theorem splitOnChar_ne_nil (sep : Char) (l : List Char) : splitOnChar sep l ≠ [] := by
  cases l with
  | nil => simp [splitOnChar]
  | cons c rest =>
    simp only [splitOnChar]
    split
    · simp
    · cases h : splitOnChar sep rest <;> simp

theorem joinNl_cons (a : List Char) (ls : List (List Char)) (h : ls ≠ []) :
    joinNl (a :: ls) = a ++ '\n' :: joinNl ls := by
  cases ls with
  | nil => exact absurd rfl h
  | cons b bs => rfl

theorem joinNl_splitOnChar (l : List Char) : joinNl (splitOnChar '\n' l) = l := by
  induction l with
  | nil => rfl
  | cons c rest ih =>
    simp only [splitOnChar]
    by_cases hc : c = '\n'
    · rw [if_pos hc, joinNl_cons _ _ (splitOnChar_ne_nil _ _), ih, hc]
      rfl
    · rw [if_neg hc]
      cases h : splitOnChar '\n' rest with
      | nil => exact absurd h (splitOnChar_ne_nil _ _)
      | cons x xs =>
        rw [h] at ih
        cases xs with
        | nil => simpa [joinNl] using ih
        | cons y ys =>
          rw [joinNl_cons _ _ (by simp)] at ih ⊢
          simpa using ih

theorem joinNl_splitOnNl (l : List Char) : joinNl (splitOnNl l) = l :=
  joinNl_splitOnChar l

theorem splitOnChar_cons_of_ne (sep c : Char) (l : List Char) (h : ¬ c = sep) :
    splitOnChar sep (c :: l) =
      (c :: (splitOnChar sep l).headI) :: (splitOnChar sep l).tail := by
  simp only [splitOnChar, if_neg h]
  cases hs : splitOnChar sep l with
  | nil => exact absurd hs (splitOnChar_ne_nil _ _)
  | cons x xs => simp

theorem splitOnChar_of_not_mem (sep : Char) (l : List Char) (h : sep ∉ l) :
    splitOnChar sep l = [l] := by
  induction l with
  | nil => rfl
  | cons c rest ih =>
    have hc : ¬ c = sep := by rintro rfl; exact h (List.mem_cons_self _ _)
    have hrest : sep ∉ rest := fun hm => h (List.mem_cons_of_mem _ hm)
    simp only [splitOnChar, if_neg hc, ih hrest]

theorem splitOnNl_of_not_mem (l : List Char) (h : '\n' ∉ l) : splitOnNl l = [l] :=
  splitOnChar_of_not_mem '\n' l h

theorem splitOnChar_append_of_not_mem_left (sep : Char) (x y : List Char)
    (hx : sep ∉ x) :
    splitOnChar sep (x ++ sep :: y) = x :: splitOnChar sep y := by
  induction x with
  | nil => simp [splitOnChar]
  | cons c rest ih =>
    have hc : ¬ c = sep := by rintro rfl; exact hx (List.mem_cons_self _ _)
    have hrest : sep ∉ rest := fun hm => hx (List.mem_cons_of_mem _ hm)
    simp only [List.cons_append, splitOnChar, if_neg hc, List.append_eq, ih hrest]

/-- Splitting a join of newline-free lines recovers the lines. -/
theorem splitOnNl_joinNl (ls : List (List Char)) (hne : ls ≠ [])
    (h : ∀ l ∈ ls, '\n' ∉ l) : splitOnNl (joinNl ls) = ls := by
  induction ls with
  | nil => exact absurd rfl hne
  | cons a rest ih =>
    cases rest with
    | nil =>
      simpa [joinNl, splitOnNl] using
        splitOnChar_of_not_mem '\n' a (h a (List.mem_cons_self _ _))
    | cons b bs =>
      rw [joinNl_cons _ _ (by simp)]
      unfold splitOnNl
      rw [splitOnChar_append_of_not_mem_left '\n' a _ (h a (List.mem_cons_self _ _))]
      have := ih (by simp) (fun l hl => h l (List.mem_cons_of_mem _ hl))
      rw [show splitOnChar '\n' (joinNl (b :: bs)) = splitOnNl (joinNl (b :: bs)) from rfl,
        this]

/-- A member of a line split only has characters of the split text. -/
theorem mem_of_mem_splitOnChar (sep : Char) (l : List Char) (line : List Char)
    (hl : line ∈ splitOnChar sep l) (c : Char) (hc : c ∈ line) : c ∈ l := by
  induction l generalizing line with
  | nil =>
    simp only [splitOnChar, List.mem_singleton] at hl
    subst hl
    exact absurd hc (List.not_mem_nil c)
  | cons d rest ih =>
    simp only [splitOnChar] at hl
    by_cases hd : d = sep
    · rw [if_pos hd] at hl
      rcases List.mem_cons.mp hl with h | h
      · subst h; exact absurd hc (List.not_mem_nil c)
      · exact List.mem_cons_of_mem _ (ih line h hc)
    · rw [if_neg hd] at hl
      cases hs : splitOnChar sep rest with
      | nil => exact absurd hs (splitOnChar_ne_nil _ _)
      | cons x xs =>
        rw [hs] at hl
        rcases List.mem_cons.mp hl with h | h
        · subst h
          rcases List.mem_cons.mp hc with h | h
          · exact h ▸ List.mem_cons_self _ _
          · exact List.mem_cons_of_mem _
              (ih x (by rw [hs]; exact List.mem_cons_self _ _) h)
        · exact List.mem_cons_of_mem _
            (ih line (by rw [hs]; exact List.mem_cons_of_mem _ h) hc)

/- Generic lemmas: token search. -/

theorem splitOnTok_length (tok : List Char) (l a b : List Char)
    (h : splitOnTok tok l = some (a, b)) :
    a.length + tok.length + b.length = l.length := by
  induction l generalizing a with
  | nil => simp [splitOnTok] at h
  | cons c rest ih =>
    simp only [splitOnTok] at h
    split at h
    · rename_i hpre
      have hlen : tok.length ≤ (c :: rest).length :=
        (List.isPrefixOf_iff_prefix.mp hpre).length_le
      simp only [Option.some.injEq, Prod.mk.injEq] at h
      obtain ⟨ha, hb⟩ := h
      subst ha; subst hb
      simp only [List.length_nil, List.length_drop]
      omega
    · cases hs : splitOnTok tok rest with
      | none => rw [hs] at h; exact absurd h (by simp)
      | some p =>
        obtain ⟨a', b'⟩ := p
        rw [hs] at h
        simp only [Option.some.injEq, Prod.mk.injEq] at h
        obtain ⟨ha, hb⟩ := h
        subst ha; subst hb
        have := ih a' hs
        simp only [List.length_cons]
        omega

theorem splitOnTokSameLine_length (tok : List Char) (l a b : List Char)
    (h : splitOnTokSameLine tok l = some (a, b)) :
    a.length + tok.length + b.length = l.length := by
  induction l generalizing a with
  | nil => simp [splitOnTokSameLine] at h
  | cons c rest ih =>
    simp only [splitOnTokSameLine] at h
    split at h
    · rename_i hpre
      have hlen : tok.length ≤ (c :: rest).length :=
        (List.isPrefixOf_iff_prefix.mp hpre).length_le
      simp only [Option.some.injEq, Prod.mk.injEq] at h
      obtain ⟨ha, hb⟩ := h
      subst ha; subst hb
      simp only [List.length_nil, List.length_drop]
      omega
    · split at h
      · exact absurd h (by simp)
      · cases hs : splitOnTokSameLine tok rest with
        | none => rw [hs] at h; exact absurd h (by simp)
        | some p =>
          obtain ⟨a', b'⟩ := p
          rw [hs] at h
          simp only [Option.some.injEq, Prod.mk.injEq] at h
          obtain ⟨ha, hb⟩ := h
          subst ha; subst hb
          have := ih a' hs
          simp only [List.length_cons]
          omega

/-- The head of a nonempty prefix is the head of the list. -/
theorem mem_of_isPrefixOf_cons (a : Char) (p : List Char) (m : List Char)
    (h : (a :: p).isPrefixOf m = true) : a ∈ m := by
  rcases List.isPrefixOf_iff_prefix.mp h with ⟨t, ht⟩
  rw [← ht]
  exact List.mem_append_left _ (List.mem_cons_self _ _)

/- Generic lemmas: the re.sub scanner. -/

theorem subScanF_fuel_eq (tryAt : List Char → Option (List Char × List Char))
    (H : Consumes tryAt) :
    ∀ fuel l, l.length ≤ fuel →
      subScanF tryAt fuel l = subScanF tryAt l.length l := by
  intro fuel
  induction fuel using Nat.strong_induction_on with
  | _ fuel ih =>
    intro l hl
    match fuel, l with
    | 0, l =>
      interval_cases hl' : l.length
      · cases l with
        | nil => rfl
        | cons c cs => simp at hl'
    | fuel + 1, [] => rfl
    | fuel + 1, c :: cs =>
      simp only [List.length_cons] at hl
      simp only [subScanF, List.length_cons]
      cases hm : tryAt (c :: cs) with
      | some p =>
        obtain ⟨r, rest⟩ := p
        have hle : rest.length ≤ cs.length := H c cs r rest hm
        have h1 : subScanF tryAt fuel rest = subScanF tryAt rest.length rest :=
          ih fuel (Nat.lt_succ_self _) rest (by omega)
        have h2 : subScanF tryAt cs.length rest = subScanF tryAt rest.length rest :=
          ih cs.length (by omega) rest hle
        show r ++ subScanF tryAt fuel rest = r ++ subScanF tryAt cs.length rest
        rw [h1, h2]
      | none =>
        have h1 : subScanF tryAt fuel cs = subScanF tryAt cs.length cs :=
          ih fuel (Nat.lt_succ_self _) cs (by omega)
        show c :: subScanF tryAt fuel cs = c :: subScanF tryAt cs.length cs
        rw [h1]

theorem subScan_nil (tryAt : List Char → Option (List Char × List Char)) :
    subScan tryAt [] = [] := rfl

theorem subScan_cons_none (tryAt : List Char → Option (List Char × List Char))
    (c : Char) (cs : List Char) (h : tryAt (c :: cs) = none) :
    subScan tryAt (c :: cs) = c :: subScan tryAt cs := by
  simp only [subScan, List.length_cons, subScanF, h]

theorem subScan_cons_some (tryAt : List Char → Option (List Char × List Char))
    (H : Consumes tryAt) (c : Char) (cs r rest : List Char)
    (h : tryAt (c :: cs) = some (r, rest)) :
    subScan tryAt (c :: cs) = r ++ subScan tryAt rest := by
  simp only [subScan, List.length_cons, subScanF, h]
  rw [subScanF_fuel_eq tryAt H cs.length rest (H c cs r rest h)]

/-- A scan with no match anywhere is the identity. -/
theorem subScan_id (tryAt : List Char → Option (List Char × List Char))
    (l : List Char) (h : ∀ c cs, (c :: cs) <:+ l → tryAt (c :: cs) = none) :
    subScan tryAt l = l := by
  induction l with
  | nil => rfl
  | cons c cs ih =>
    rw [subScan_cons_none tryAt c cs (h c cs List.suffix_rfl)]
    rw [ih (fun d ds hs => h d ds (hs.trans (List.suffix_cons c cs)))]

theorem consumes_tryTokRepl (pat repl : List Char) (hp : pat ≠ []) :
    Consumes (tryTokRepl pat repl) := by
  intro c cs r rest h
  simp only [tryTokRepl] at h
  split at h
  · rename_i hpre
    simp only [Option.some.injEq, Prod.mk.injEq] at h
    obtain ⟨-, hrest⟩ := h
    subst hrest
    have : 1 ≤ pat.length := by cases pat with | nil => exact absurd rfl hp | cons _ _ => simp
    simp only [List.length_drop, List.length_cons]
    omega
  · exact absurd h (by simp)

theorem consumes_tryStripTag : Consumes tryStripTag := by
  intro c cs r rest h
  simp only [tryStripTag] at h
  split at h
  · rename_i rest1 heq
    obtain ⟨rfl, rfl⟩ := heq
    split at h
    · exact absurd h (by simp)
    · split at h
      · rename_i rest2 heq2
        simp only [Option.some.injEq, Prod.mk.injEq] at h
        obtain ⟨-, hrest⟩ := h
        subst hrest
        have h3 := congrArg List.length heq2
        simp at h3
        omega
      · exact absurd h (by simp)
  · exact absurd h (by simp)

theorem consumes_tryCollapse : Consumes tryCollapse := by
  intro c cs r rest h
  simp only [tryCollapse] at h
  split at h
  · rename_i hcd
    simp only [Option.some.injEq, Prod.mk.injEq] at h
    obtain ⟨-, hrest⟩ := h
    subst hrest
    have heq : (c :: cs).dropWhile (fun d => d == '-' || isWs d) =
        cs.dropWhile (fun d => d == '-' || isWs d) := by
      rw [List.dropWhile_cons_of_pos (by simpa using hcd)]
    rw [heq]
    exact (List.dropWhile_suffix _).length_le
  · exact absurd h (by simp)

theorem consumes_tryFence (mk : List Char → List Char → List Char) :
    Consumes (tryFence mk) := by
  intro c cs r rest h
  simp only [tryFence] at h
  split at h
  · rename_i hpre
    split at h
    · rename_i body heq
      cases hs : splitOnTok (lc "\n```") body with
      | none => rw [hs] at h; exact absurd h (by simp)
      | some p =>
        obtain ⟨content, rest'⟩ := p
        rw [hs] at h
        simp only [Option.some.injEq, Prod.mk.injEq] at h
        obtain ⟨-, hrest⟩ := h
        subst hrest
        have h1 := splitOnTok_length _ _ _ _ hs
        have h2 := congrArg List.length heq
        have h3 : ((c :: cs).drop 3).length ≤ cs.length := by
          simp only [List.length_drop, List.length_cons]; omega
        have h4 : (((c :: cs).drop 3).drop
            (((c :: cs).drop 3).takeWhile isWordChar).length).length ≤
            ((c :: cs).drop 3).length := by
          simp only [List.length_drop]; omega
        simp only [List.length_cons] at h2
        simp only [lc] at h1
        simp only [List.length_cons, List.length_nil] at h1 h2
        omega
    · exact absurd h (by simp)
  · exact absurd h (by simp)

theorem consumes_tryInlineCode : Consumes tryInlineCode := by
  intro c cs r rest h
  simp only [tryInlineCode] at h
  split at h
  · rename_i rest1 heq
    obtain ⟨rfl, rfl⟩ := heq
    split at h
    · exact absurd h (by simp)
    · split at h
      · rename_i rest2 heq2
        simp only [Option.some.injEq, Prod.mk.injEq] at h
        obtain ⟨-, hrest⟩ := h
        subst hrest
        have h3 := congrArg List.length heq2
        simp at h3
        omega
      · exact absurd h (by simp)
  · exact absurd h (by simp)

theorem consumes_tryDelim (delim opn cls : List Char) (hd : delim ≠ []) :
    Consumes (tryDelim delim opn cls) := by
  intro c cs r rest h
  simp only [tryDelim] at h
  split at h
  · rename_i hpre
    cases hs : splitOnTokSameLine delim ((c :: cs).drop delim.length) with
    | none => rw [hs] at h; exact absurd h (by simp)
    | some p =>
      obtain ⟨content, rest'⟩ := p
      rw [hs] at h
      simp only [Option.some.injEq, Prod.mk.injEq] at h
      obtain ⟨-, hrest⟩ := h
      subst hrest
      have h1 := splitOnTokSameLine_length _ _ _ _ hs
      have h2 : 1 ≤ delim.length := by
        cases delim with | nil => exact absurd rfl hd | cons _ _ => simp
      simp only [List.length_drop, List.length_cons] at h1
      omega
  · exact absurd h (by simp)

theorem consumes_tryLink : Consumes tryLink := by
  intro c cs r rest h
  simp only [tryLink] at h
  split at h
  · rename_i rest1 heq
    obtain ⟨rfl, rfl⟩ := heq
    split at h
    · exact absurd h (by simp)
    · split at h
      · rename_i rest2 heq2
        split at h
        · exact absurd h (by simp)
        · split at h
          · rename_i rest3 heq3
            simp only [Option.some.injEq, Prod.mk.injEq] at h
            obtain ⟨-, hrest⟩ := h
            subst hrest
            have h2 := congrArg List.length heq2
            have h3 := congrArg List.length heq3
            have h4 : (rest2.drop (rest2.takeWhile (· != ')')).length).length ≤
                rest2.length := by simp only [List.length_drop]; omega
            simp only [List.length_drop, List.length_cons] at h2 h3 ⊢
            omega
          · exact absurd h (by simp)
      · exact absurd h (by simp)
  · exact absurd h (by simp)

theorem tryLiItem_length (l item rest : List Char)
    (h : tryLiItem l = some (item, rest)) : rest.length + 9 ≤ l.length := by
  simp only [tryLiItem] at h
  split at h
  · rename_i hpre
    cases hs : splitOnTok (lc "</li>") (l.drop 4) with
    | none => rw [hs] at h; exact absurd h (by simp)
    | some p =>
      obtain ⟨content, rest'⟩ := p
      rw [hs] at h
      simp only [Option.some.injEq, Prod.mk.injEq] at h
      obtain ⟨-, hrest⟩ := h
      subst hrest
      have h1 := splitOnTok_length _ _ _ _ hs
      have h2 : 4 ≤ l.length := by
        have := (List.isPrefixOf_iff_prefix.mp hpre).length_le
        simpa [lc] using this
      simp only [lc, List.length_drop] at h1
      simp only [List.length_cons, List.length_nil] at h1
      omega
  · exact absurd h (by simp)

theorem liStarF_length (fuel : Nat) (l more rest2 : List Char)
    (h : liStarF fuel l = (more, rest2)) : rest2.length ≤ l.length := by
  induction fuel generalizing l more with
  | zero =>
    simp only [liStarF, Prod.mk.injEq] at h
    obtain ⟨-, hrest⟩ := h
    subst hrest
    exact le_rfl
  | succ fuel ih =>
    simp only [liStarF] at h
    cases hm : tryLiItem (l.drop (l.takeWhile isWs).length) with
    | some p =>
      obtain ⟨item, rest⟩ := p
      rw [hm] at h
      simp only at h
      split at h
      · rename_i hlt
        cases hrec : liStarF fuel rest with
        | mk more' rest' =>
          rw [hrec] at h
          simp only [Prod.mk.injEq] at h
          obtain ⟨-, hrest⟩ := h
          subst hrest
          have := ih rest more' hrec
          omega
      · simp only [Prod.mk.injEq] at h
        obtain ⟨-, hrest⟩ := h
        subst hrest
        have := tryLiItem_length _ _ _ hm
        have h2 : (l.drop (l.takeWhile isWs).length).length ≤ l.length := by
          simp only [List.length_drop]; omega
        omega
    | none =>
      rw [hm] at h
      simp only [Prod.mk.injEq] at h
      obtain ⟨-, hrest⟩ := h
      subst hrest
      exact le_rfl

theorem consumes_tryWrap : Consumes tryWrap := by
  intro c cs r rest h
  simp only [tryWrap] at h
  cases hm : tryLiItem (c :: cs) with
  | none => rw [hm] at h; exact absurd h (by simp)
  | some p =>
    obtain ⟨item, rest1⟩ := p
    rw [hm] at h
    simp only at h
    cases hst : liStar rest1 with
    | mk more rest2 =>
      rw [hst] at h
      simp only [Option.some.injEq, Prod.mk.injEq] at h
      obtain ⟨-, hrest⟩ := h
      subst hrest
      have h1 := tryLiItem_length _ _ _ hm
      have h2 := liStarF_length _ _ _ _ hst
      simp only [List.length_cons] at h1
      omega

theorem consumes_tryWrapSingle : Consumes tryWrapSingle := by
  intro c cs r rest h
  simp only [tryWrapSingle] at h
  cases hm : tryLiItem (c :: cs) with
  | none => rw [hm] at h; exact absurd h (by simp)
  | some p =>
    obtain ⟨item, rest1⟩ := p
    rw [hm] at h
    simp only [Option.some.injEq, Prod.mk.injEq] at h
    obtain ⟨-, hrest⟩ := h
    subst hrest
    have h1 := tryLiItem_length _ _ _ hm
    simp only [List.length_cons] at h1
    omega

/- No-match conditions for the matchers. -/

theorem cons_isPrefixOf_cons (a b : Char) (p m : List Char) :
    (a :: p).isPrefixOf (b :: m) = (a == b && p.isPrefixOf m) := rfl

theorem isPrefixOf_eq_false_of_not_mem (a : Char) (p m : List Char) (h : a ∉ m) :
    (a :: p).isPrefixOf m = false := by
  by_contra hc
  simp only [Bool.not_eq_false] at hc
  exact h (mem_of_isPrefixOf_cons a p m hc)

theorem not_mem_of_suffix (c : Char) (s l : List Char) (hs : s <:+ l) (h : c ∉ l) :
    c ∉ s := fun hm => h (hs.subset hm)

theorem tryFence_none (mk : List Char → List Char → List Char) (l : List Char)
    (h : '`' ∉ l) : tryFence mk l = none := by
  simp only [tryFence]
  rw [show lc "```" = '`' :: lc "``" from rfl,
    isPrefixOf_eq_false_of_not_mem '`' _ l h]
  rfl

theorem tryInlineCode_none (l : List Char) (h : '`' ∉ l) : tryInlineCode l = none := by
  cases l with
  | nil => rfl
  | cons c cs =>
    have hc : ¬ c = '`' := fun hcc => h (hcc ▸ List.mem_cons_self _ _)
    simp only [tryInlineCode]
    split
    · rename_i heq
      injection heq with h1 h2
      exact absurd h1 hc
    · rfl

theorem tryDelim_none (ch : Char) (dtail opn cls : List Char) (l : List Char)
    (h : ch ∉ l) : tryDelim (ch :: dtail) opn cls l = none := by
  simp only [tryDelim]
  rw [isPrefixOf_eq_false_of_not_mem ch _ l h]
  rfl

theorem tryLink_none (l : List Char) (h : '[' ∉ l) : tryLink l = none := by
  cases l with
  | nil => rfl
  | cons c cs =>
    have hc : ¬ c = '[' := fun hcc => h (hcc ▸ List.mem_cons_self _ _)
    simp only [tryLink]
    split
    · rename_i heq
      injection heq with h1 h2
      exact absurd h1 hc
    · rfl

theorem containsTok_false_no_match (tok l : List Char)
    (h : containsTok tok l = false) (c : Char) (cs : List Char)
    (hs : (c :: cs) <:+ l) : tok.isPrefixOf (c :: cs) = false := by
  induction l with
  | nil => exact absurd (List.eq_nil_of_suffix_nil hs) (by simp)
  | cons d ds ih =>
    simp only [containsTok, Bool.or_eq_false_iff] at h
    rcases List.suffix_cons_iff.mp hs with heq | hsuf
    · rw [heq]; exact h.1
    · exact ih (by simpa [containsTok] using h.2) hsuf

theorem tryLiItem_none (l : List Char) (h : (lc "<li>").isPrefixOf l = false) :
    tryLiItem l = none := by
  simp only [tryLiItem, h]
  rfl

theorem tryWrap_none (l : List Char) (h : (lc "<li>").isPrefixOf l = false) :
    tryWrap l = none := by
  simp only [tryWrap, tryLiItem_none l h]

theorem tryWrapSingle_none (l : List Char) (h : (lc "<li>").isPrefixOf l = false) :
    tryWrapSingle l = none := by
  simp only [tryWrapSingle, tryLiItem_none l h]

theorem tryStripTag_none (l : List Char) (h : '<' ∉ l) : tryStripTag l = none := by
  cases l with
  | nil => rfl
  | cons c cs =>
    have hc : ¬ c = '<' := fun hcc => h (hcc ▸ List.mem_cons_self _ _)
    simp only [tryStripTag]
    split
    · rename_i heq
      injection heq with h1 h2
      exact absurd h1 hc
    · rfl

/- Identity lemmas for the scanning passes under character absence. -/

theorem subScan_fence_id (mk : List Char → List Char → List Char) (l : List Char)
    (h : '`' ∉ l) : subScan (tryFence mk) l = l :=
  subScan_id _ l fun c cs hs => tryFence_none mk _ (not_mem_of_suffix '`' _ l hs h)

theorem subScan_inline_id (l : List Char) (h : '`' ∉ l) :
    subScan tryInlineCode l = l :=
  subScan_id _ l fun c cs hs => tryInlineCode_none _ (not_mem_of_suffix '`' _ l hs h)

theorem subScan_delim_id (ch : Char) (dtail opn cls : List Char) (l : List Char)
    (h : ch ∉ l) : subScan (tryDelim (ch :: dtail) opn cls) l = l :=
  subScan_id _ l fun c cs hs => tryDelim_none ch dtail opn cls _
    (not_mem_of_suffix ch _ l hs h)

theorem subScan_link_id (l : List Char) (h : '[' ∉ l) : subScan tryLink l = l :=
  subScan_id _ l fun c cs hs => tryLink_none _ (not_mem_of_suffix '[' _ l hs h)

theorem subScan_wrap_id (l : List Char) (h : containsTok (lc "<li>") l = false) :
    subScan tryWrap l = l :=
  subScan_id _ l fun c cs hs => tryWrap_none _ (containsTok_false_no_match _ l h c cs hs)

theorem subScan_wrapSingle_id (l : List Char) (h : containsTok (lc "<li>") l = false) :
    subScan tryWrapSingle l = l :=
  subScan_id _ l fun c cs hs =>
    tryWrapSingle_none _ (containsTok_false_no_match _ l h c cs hs)

/- Identity lemmas for the line-anchored passes. -/

theorem subLines_congr_id (f : List Char → List Char) (l : List Char)
    (h : ∀ line ∈ splitOnNl l, f line = line) : subLines f l = l := by
  unfold subLines
  rw [List.map_congr_left h]
  have : List.map (fun a => a) (splitOnNl l) = splitOnNl l := List.map_id' _
  rw [this, joinNl_splitOnNl]

theorem headerLine_id (k : Nat) (line : List Char) (hk : k ≠ 0)
    (h : line.head? ≠ some '#') : headerLine k line = line := by
  obtain ⟨j, rfl⟩ : ∃ j, k = j + 1 := ⟨k - 1, by omega⟩
  simp only [headerLine]
  rw [if_neg]
  intro hpre
  rw [show hashes (j + 1) ++ [' '] = '#' :: (hashes j ++ [' ']) from by
    simp [hashes, List.replicate_succ]] at hpre
  cases line with
  | nil => simp [List.isPrefixOf] at hpre
  | cons c cs =>
    rw [cons_isPrefixOf_cons] at hpre
    have : '#' = c := by
      have := (Bool.and_eq_true _ _).mp hpre |>.1
      exact beq_iff_eq.mp this
    exact h (by rw [← this]; rfl)

theorem headerLineNoId_id (k : Nat) (line : List Char) (hk : k ≠ 0)
    (h : line.head? ≠ some '#') : headerLineNoId k line = line := by
  obtain ⟨j, rfl⟩ : ∃ j, k = j + 1 := ⟨k - 1, by omega⟩
  simp only [headerLineNoId]
  rw [if_neg]
  intro hpre
  rw [show hashes (j + 1) ++ [' '] = '#' :: (hashes j ++ [' ']) from by
    simp [hashes, List.replicate_succ]] at hpre
  cases line with
  | nil => simp [List.isPrefixOf] at hpre
  | cons c cs =>
    rw [cons_isPrefixOf_cons] at hpre
    have : '#' = c := by
      have := (Bool.and_eq_true _ _).mp hpre |>.1
      exact beq_iff_eq.mp this
    exact h (by rw [← this]; rfl)

theorem numberedLine_id_of_head (line : List Char)
    (h : ∀ d, line.head? = some d → d.isDigit = false) : numberedLine line = line := by
  cases line with
  | nil => rfl
  | cons c cs =>
    have hc := h c rfl
    simp only [numberedLine, List.takeWhile_cons, hc]
    rfl

theorem numberedLine_id_of_not_dot (line : List Char) (h : '.' ∉ line) :
    numberedLine line = line := by
  simp only [numberedLine]
  split
  · rfl
  · rw [if_neg]
    intro hpre
    have : '.' ∈ line.drop (line.takeWhile Char.isDigit).length :=
      mem_of_isPrefixOf_cons '.' _ _ (by exact hpre)
    exact h (List.drop_subset _ line this)

theorem bulletLine_id (line : List Char)
    (h : ∀ c, line.head? = some c → ¬(c = '-' ∨ c = '*' ∨ c = '+')) :
    bulletLine line = line := by
  simp only [bulletLine]
  split
  · rename_i c rest
    have hc := h c rfl
    rw [if_neg (by push_neg at hc; simp [hc.1, hc.2.1, hc.2.2])]
  · rfl

theorem dashLine_id (line : List Char) (h : line.head? ≠ some '-') :
    dashLine line = line := by
  simp only [dashLine]
  split
  · rename_i rest
    exact absurd rfl h
  · rfl

theorem blockquoteLine_id (line : List Char) (h : line.head? ≠ some '>') :
    blockquoteLine line = line := by
  simp only [blockquoteLine]
  rw [if_neg]
  intro hpre
  rw [show lc "> " = '>' :: lc " " from rfl] at hpre
  cases line with
  | nil => simp [List.isPrefixOf] at hpre
  | cons c cs =>
    rw [cons_isPrefixOf_cons] at hpre
    have : '>' = c := beq_iff_eq.mp ((Bool.and_eq_true _ _).mp hpre).1
    exact h (by rw [← this]; rfl)

theorem hrLine_id_of_mem (line : List Char) (c : Char) (hc : c ∈ line)
    (hne : c ≠ '-') : hrLine line = line := by
  simp only [hrLine]
  rw [if_neg]
  intro hcond
  have hall := (Bool.and_eq_true _ _).mp hcond |>.2
  have := List.all_eq_true.mp hall c hc
  exact hne (beq_iff_eq.mp this)
theorem subScan_append_no_match (tryAt : List Char → Option (List Char × List Char))
    (u v : List Char)
    (h : ∀ c cs, (c :: cs) <:+ u → tryAt ((c :: cs) ++ v) = none) :
    subScan tryAt (u ++ v) = u ++ subScan tryAt v := by
  induction u with
  | nil => rfl
  | cons c cs ih =>
    rw [List.cons_append,
      subScan_cons_none tryAt c (cs ++ v) (h c cs List.suffix_rfl),
      ih (fun d ds hs => h d ds (hs.trans (List.suffix_cons c cs)))]
    rfl

/- Claim C4: the duplicated markdown-to-HTML converter. -/

/-- C4 counterexample: the four copies of `simple_markdown_to_html` do not all
    return the same output; on the input `# A` the utils/generate_html.py copy
    omits the anchor id that the generate_kindle.py copy produces. -/
theorem c4_counterexample :
    ¬ (UtilsGenerateHtml.simple_markdown_to_html (lc "# A")
        = GenerateKindle.simple_markdown_to_html (lc "# A")) := by decide

/-- C4 (amended): the three verbatim copies of the converter — in
    generate_kindle.py, utils/generate_html_flexible.py and
    src/generate_html_flexible.py — return the same output for every input
    string, while the reduced copy in utils/generate_html.py differs (already
    on the input `# A`, where it emits a header without an id attribute). -/
theorem c4_markdown_converter_copies :
    (∀ s : List Char, UtilsGenerateHtmlFlexible.simple_markdown_to_html s
        = GenerateKindle.simple_markdown_to_html s) ∧
    (∀ s : List Char, SrcGenerateHtmlFlexible.simple_markdown_to_html s
        = GenerateKindle.simple_markdown_to_html s) ∧
    UtilsGenerateHtml.simple_markdown_to_html (lc "# A")
      ≠ GenerateKindle.simple_markdown_to_html (lc "# A") :=
  ⟨fun _ => rfl, fun _ => rfl, by decide⟩

/- Claim C7: the transducer is stateless and deterministic. -/

/-- C7: `simple_markdown_to_html` is a pure function of its input string: on
    equal inputs it returns equal outputs, and repeated application to the same
    input yields the identical result (in the embedding the converter is a
    function with no hidden state). -/
theorem c7_transducer_deterministic :
    ∀ s₁ s₂ : List Char, s₁ = s₂ →
      GenerateKindle.simple_markdown_to_html s₁
        = GenerateKindle.simple_markdown_to_html s₂ :=
  fun _ _ h => h ▸ rfl

/-- C7 witness: the determinism theorem applied at a concrete input. -/
theorem c7_witness :
    lc "# Hi\n\n*text*" = lc "# Hi\n\n*text*" ∧
    GenerateKindle.simple_markdown_to_html (lc "# Hi\n\n*text*")
      = GenerateKindle.simple_markdown_to_html (lc "# Hi\n\n*text*") :=
  ⟨rfl, c7_transducer_deterministic _ _ rfl⟩

/- Claim C10: chapter ordering with an order file. -/

theorem master_volume_foldl (markdownFiles : List String) (ord : List String) :
    ∀ acc : List String,
      ord.foldl (fun acc filename =>
        match markdownFiles.filter (fun f => f == filename) with
        | [] => acc
        | m :: _ => acc ++ [m]) acc
      = acc ++ ord.filterMap (fun n => (markdownFiles.filter (fun f => f == n)).head?) := by
  induction ord with
  | nil => intro acc; simp
  | cons n ns ih =>
    intro acc
    simp only [List.foldl_cons, List.filterMap_cons]
    cases hf : markdownFiles.filter (fun f => f == n) with
    | nil => simpa using ih acc
    | cons m ms =>
      rw [ih (acc ++ [m]), List.append_assoc]
      rfl

/-- C10: with `--order-file` the chapter sequence is exactly the listed
    filenames that match discovered markdown files, in listed order (listed
    names without a match are skipped), followed by every discovered file not
    named in the order file, in sorted filename order. -/
theorem c10_order_file_sequence :
    ∀ markdownFiles orderedFilenames : List String,
      master_volume_chapter_order markdownFiles orderedFilenames
        = master_volume_chapter_order_spec markdownFiles orderedFilenames := by
  intro markdownFiles ord
  unfold master_volume_chapter_order master_volume_chapter_order_spec
  cases ord with
  | nil => simp [sortedFileNames]
  | cons n ns =>
    simp only [List.isEmpty_cons, Bool.not_false, if_true]
    rw [master_volume_foldl markdownFiles (n :: ns) []]
    simp

/- Claim C5: partial-failure semantics of the per-file loops. -/

/-- C5 counterexample: in each of the three per-file loops an error on one
    input file is caught and skipped and the loop continues: with a first file
    whose read raises and a second valid file, the second file is still
    processed — refuting that errors are not caught and skipped. -/
theorem c5_counterexample :
    convert_mermaid_files
      [⟨"a", .error "read failed"⟩, ⟨"b", .ok (lc "```mermaid\ngraph TD\n```")⟩]
      = (["b.html"], true) ∧
    convert_ascii_to_html_files
      [⟨"a", .error "read failed"⟩, ⟨"b", .ok (lc "some ascii art")⟩]
      = (["b.html"], 1) ∧
    master_volume_read_files
      [⟨"a.md", .error "read failed"⟩, ⟨"b.md", .ok (lc "0123456789ABC")⟩]
      = ([("b.md", lc "0123456789ABC")], false) := by decide

theorem convert_mermaid_files_foldl (files : List MermaidFile) :
    ∀ acc : List String,
      files.foldl (fun acc f =>
        match f.read with
        | .error _ => acc
        | .ok content =>
          if (extract_mermaid_from_markdown content).isEmpty then acc
          else acc ++ [f.stem ++ ".html"]) acc
      = acc ++ files.filterMap mermaidOutput := by
  induction files with
  | nil => intro acc; simp
  | cons f fs ih =>
    intro acc
    simp only [List.foldl_cons, List.filterMap_cons]
    cases hr : f.read with
    | error e => simp only [mermaidOutput, hr, ih]
    | ok content =>
      simp only [mermaidOutput, hr]
      by_cases hm : (extract_mermaid_from_markdown content).isEmpty
      · simp only [if_pos hm, ih]
      · simp only [if_neg hm, ih, List.append_assoc]
        rfl

theorem convert_ascii_files_foldl (files : List AsciiFile) :
    ∀ acc : List String,
      files.foldl (fun acc f =>
        match f.read with
        | .error _ => acc
        | .ok content =>
          if (pyStrip content).isEmpty then acc
          else acc ++ [f.stem ++ ".html"]) acc
      = acc ++ files.filterMap asciiOutput := by
  induction files with
  | nil => intro acc; simp
  | cons f fs ih =>
    intro acc
    simp only [List.foldl_cons, List.filterMap_cons]
    cases hr : f.read with
    | error e => simp only [asciiOutput, hr, ih]
    | ok content =>
      simp only [asciiOutput, hr]
      by_cases hm : (pyStrip content).isEmpty
      · simp only [if_pos hm, ih]
      · simp only [if_neg hm, ih, List.append_assoc]
        rfl

theorem master_volume_read_foldl (files : List VolumeFile) :
    ∀ acc : List (String × List Char),
      files.foldl (fun acc f =>
        match f.read with
        | .error _ => acc
        | .ok content =>
          if content.isEmpty || decide ((pyStrip content).length < 10) then acc
          else acc ++ [(f.path, content)]) acc
      = acc ++ files.filterMap volumeContent := by
  induction files with
  | nil => intro acc; simp
  | cons f fs ih =>
    intro acc
    simp only [List.foldl_cons, List.filterMap_cons]
    cases hr : f.read with
    | error e => simp only [volumeContent, hr, ih]
    | ok content =>
      simp only [volumeContent, hr]
      by_cases hm : (content.isEmpty || decide ((pyStrip content).length < 10)) = true
      · simp only [hm, ih]
        simp
      · rw [if_neg hm, if_neg hm, ih, List.append_assoc]
        rfl

/-- C5 (amended): the three cited per-file loops — convert_mermaid_to_html.py,
    convert_ascii_to_html.py and create_master_volume.py — implement
    partial-failure tolerance, not fail-stop: for every file list, a file whose
    read raises is caught and skipped and every other file is still processed —
    the outputs are exactly those of the non-failing, non-skipped files, in
    order (and there is no retry: a failed file contributes nothing). -/
theorem c5_per_file_errors_skipped :
    (∀ files : List MermaidFile,
      convert_mermaid_files files
        = (files.filterMap mermaidOutput,
           !(files.filterMap mermaidOutput).isEmpty)) ∧
    (∀ files : List AsciiFile,
      convert_ascii_to_html_files files
        = (files.filterMap asciiOutput, (files.filterMap asciiOutput).length)) ∧
    (∀ files : List VolumeFile,
      master_volume_read_files files
        = (files.filterMap volumeContent,
           (files.filterMap volumeContent).isEmpty)) := by
  refine ⟨fun files => ?_, fun files => ?_, fun files => ?_⟩
  · unfold convert_mermaid_files
    rw [convert_mermaid_files_foldl files []]
    simp
  · unfold convert_ascii_to_html_files
    rw [convert_ascii_files_foldl files []]
    simp
  · unfold master_volume_read_files
    rw [master_volume_read_foldl files []]
    simp

/- Claim C1: exit status on a missing named input. -/

/-- C1 counterexample: it is not the case that every script terminates with a
    non-zero exit status on a missing named input — convert_ascii_to_html,
    generate_html_flexible (both copies) and generate_html print the message
    but exit with status 0. -/
theorem c1_counterexample :
    ¬ (∀ p ∈ missing_input_runs, p.2.exit ≠ 0) := by decide

/-- C1 (amended): on a missing named input every script prints an error
    message to the console, but only confluence_to_markdown,
    convert_mermaid_to_html, create_master_volume and generate_kindle
    terminate with a non-zero exit status; convert_ascii_to_html, both copies
    of generate_html_flexible and generate_html return normally (exit 0). -/
theorem c1_missing_input_outcomes :
    ∀ p ∈ missing_input_runs, p.2.messages ≠ [] ∧
      (p.2.exit ≠ 0 ↔ p.1 ∈ ["confluence_to_markdown", "convert_mermaid_to_html",
        "create_master_volume", "generate_kindle"]) := by decide

/-- C1 witness: the amended statement applied to the generate_kindle entry. -/
theorem c1_witness :
    ("generate_kindle", generate_kindle_run false) ∈ missing_input_runs ∧
    ((generate_kindle_run false).messages ≠ [] ∧
      ((generate_kindle_run false).exit ≠ 0 ↔ "generate_kindle" ∈
        ["confluence_to_markdown", "convert_mermaid_to_html",
         "create_master_volume", "generate_kindle"])) :=
  ⟨by decide, c1_missing_input_outcomes ("generate_kindle", generate_kindle_run false)
    (by decide)⟩

/- Claim C8: create_anchor_id is idempotent and normalizing. -/

theorem char_toNat_ofNat_valid (n : Nat) (h : n.isValidChar) :
    (Char.ofNat n).toNat = n := by
  unfold Char.ofNat
  rw [dif_pos h]
  rfl

theorem toLower_not_isUpper (c : Char) : (Char.toLower c).isUpper = false := by
  simp only [Char.toLower, Char.isUpper]
  split
  · rename_i h
    have hv : (Char.ofNat (c.toNat + 32)).toNat = c.toNat + 32 :=
      char_toNat_ofNat_valid _ (Or.inl (by obtain ⟨-, h2⟩ := h; omega))
    simp only [Bool.and_eq_false_iff, decide_eq_false_iff_not]
    right
    show ¬ ((Char.ofNat (c.toNat + 32)).val.toNat ≤ (90 : UInt32).toNat)
    have hv2 : (Char.ofNat (c.toNat + 32)).val.toNat = c.toNat + 32 := hv
    rw [hv2]
    show ¬ (c.toNat + 32 ≤ 90)
    obtain ⟨h1, -⟩ := h
    omega
  · rename_i h
    simp only [Bool.and_eq_false_iff, decide_eq_false_iff_not]
    by_cases h65 : 65 ≤ c.toNat
    · right
      show ¬ (c.val.toNat ≤ (90 : UInt32).toNat)
      exact fun hc => h ⟨h65, hc⟩
    · left
      show ¬ ((65 : UInt32).toNat ≤ c.val.toNat)
      exact h65

theorem toLower_eq_self_of_not_isUpper (c : Char) (h : c.isUpper = false) :
    Char.toLower c = c := by
  simp only [Char.toLower]
  rw [if_neg]
  intro hc
  simp only [Char.isUpper, Bool.and_eq_false_iff, decide_eq_false_iff_not] at h
  obtain ⟨h1, h2⟩ := hc
  rcases h with h | h
  · exact h h1
  · exact h h2

theorem isWs_eq_false_of_isWordChar (c : Char) (h : isWordChar c = true) :
    isWs c = false := by
  by_contra hc
  simp only [Bool.not_eq_false] at hc
  simp only [isWs, Bool.or_eq_true, beq_iff_eq] at hc
  rcases hc with ((((h1 | h1) | h1) | h1) | h1) | h1 <;> subst h1 <;>
    exact absurd h (by decide)

theorem noDoubleChar_tail (c a : Char) (xs : List Char)
    (h : noDoubleChar c (a :: xs) = true) : noDoubleChar c xs = true := by
  cases xs with
  | nil => rfl
  | cons b rest =>
    simp only [noDoubleChar, Bool.and_eq_true] at h
    exact h.2

theorem noDoubleChar_cons (c a : Char) (xs : List Char)
    (hx : noDoubleChar c xs = true) (h : a = c → xs.head? ≠ some c) :
    noDoubleChar c (a :: xs) = true := by
  cases xs with
  | nil => rfl
  | cons b rest =>
    simp only [noDoubleChar, Bool.and_eq_true]
    refine ⟨?_, hx⟩
    by_cases hac : a = c
    · have hbc : ¬ b = c := by
        intro hbc
        exact h hac (by rw [hbc]; rfl)
      simp [hbc]
    · simp [hac]

theorem noDoubleChar_suffix (c : Char) (s l : List Char) (hs : s <:+ l)
    (h : noDoubleChar c l = true) : noDoubleChar c s = true := by
  induction l with
  | nil => rw [List.eq_nil_of_suffix_nil hs]; rfl
  | cons a xs ih =>
    rcases List.suffix_cons_iff.mp hs with heq | hsuf
    · rw [heq]; exact h
    · exact ih hsuf (noDoubleChar_tail c a xs h)

theorem noDoubleChar_append_left (c : Char) (u v : List Char)
    (h : noDoubleChar c (u ++ v) = true) : noDoubleChar c u = true := by
  induction u with
  | nil => rfl
  | cons a us ih =>
    cases us with
    | nil => rfl
    | cons b us2 =>
      simp only [List.cons_append] at h
      simp only [noDoubleChar, Bool.and_eq_true] at h ⊢
      exact ⟨h.1, ih (by simpa using h.2)⟩

theorem noDoubleChar_prefix (c : Char) (p l : List Char) (hp : p <+: l)
    (h : noDoubleChar c l = true) : noDoubleChar c p = true := by
  obtain ⟨t, rfl⟩ := hp
  exact noDoubleChar_append_left c p t h

theorem head?_dropWhile_neg (p : Char → Bool) (x : List Char) (d : Char)
    (h : (x.dropWhile p).head? = some d) : p d = false := by
  induction x with
  | nil => simp [List.dropWhile] at h
  | cons a xs ih =>
    by_cases ha : p a = true
    · rw [List.dropWhile_cons_of_pos ha] at h
      exact ih h
    · rw [List.dropWhile_cons_of_neg ha] at h
      simp only [List.head?_cons, Option.some.injEq] at h
      subst h
      exact Bool.eq_false_iff.mpr ha

theorem stripHyphens_structure (l : List Char) :
    ∃ r1, r1 = l.dropWhile (· == '-') ∧ stripHyphens l <+: r1 := by
  refine ⟨l.dropWhile (· == '-'), rfl, ?_⟩
  unfold stripHyphens
  set r1 := l.dropWhile (· == '-') with hr1
  obtain ⟨t, ht⟩ := List.dropWhile_suffix (l := r1.reverse) (p := (· == '-'))
  refine ⟨t.reverse, ?_⟩
  have := congrArg List.reverse ht
  simp only [List.reverse_append, List.reverse_reverse] at this
  rw [this]

theorem stripHyphens_subset (l : List Char) (c : Char) (hc : c ∈ stripHyphens l) :
    c ∈ l := by
  obtain ⟨r1, hr1, hpre⟩ := stripHyphens_structure l
  have h1 : c ∈ r1 := hpre.subset hc
  rw [hr1] at h1
  exact (List.dropWhile_suffix _).subset h1

theorem stripHyphens_noDoubleChar (c : Char) (l : List Char)
    (h : noDoubleChar c l = true) : noDoubleChar c (stripHyphens l) = true := by
  obtain ⟨r1, hr1, hpre⟩ := stripHyphens_structure l
  have h1 : noDoubleChar c r1 = true := by
    rw [hr1]
    exact noDoubleChar_suffix c _ l (List.dropWhile_suffix _) h
  exact noDoubleChar_prefix c _ r1 hpre h1

theorem stripHyphens_head (l : List Char) : (stripHyphens l).head? ≠ some '-' := by
  obtain ⟨r1, hr1, hpre⟩ := stripHyphens_structure l
  intro hc
  cases hout : stripHyphens l with
  | nil => rw [hout] at hc; simp at hc
  | cons d ds =>
    rw [hout] at hc
    simp only [List.head?_cons, Option.some.injEq] at hc
    subst hc
    rw [hout] at hpre
    obtain ⟨t, ht⟩ := hpre
    have hhead : r1.head? = some '-' := by rw [← ht]; rfl
    rw [hr1] at hhead
    have := head?_dropWhile_neg (· == '-') l '-' hhead
    simp at this

theorem stripHyphens_last (l : List Char) : (stripHyphens l).getLast? ≠ some '-' := by
  unfold stripHyphens
  rw [List.getLast?_reverse]
  intro hc
  have := head?_dropWhile_neg (· == '-') _ '-' hc
  simp at this

theorem stripHyphens_id (l : List Char) (h1 : l.head? ≠ some '-')
    (h2 : l.getLast? ≠ some '-') : stripHyphens l = l := by
  unfold stripHyphens
  have hd1 : l.dropWhile (· == '-') = l := by
    cases l with
    | nil => rfl
    | cons c cs =>
      apply List.dropWhile_cons_of_neg
      simp only [List.head?_cons, ne_eq, Option.some.injEq] at h1
      simp [h1]
  rw [hd1]
  have hd2 : l.reverse.dropWhile (· == '-') = l.reverse := by
    cases hr : l.reverse with
    | nil => rfl
    | cons c cs =>
      apply List.dropWhile_cons_of_neg
      have : l.getLast? = some c := by
        rw [← List.head?_reverse, hr]; rfl
      simp only [ne_eq, this, Option.some.injEq] at h2
      simp [h2]
  rw [hd2, List.reverse_reverse]

theorem tryCollapse_cons_pos (c : Char) (cs : List Char)
    (h : (c == '-' || isWs c) = true) :
    tryCollapse (c :: cs)
      = some (['-'], (c :: cs).dropWhile (fun d => d == '-' || isWs d)) := by
  simp only [tryCollapse]
  rw [if_pos]
  simpa using h

theorem tryCollapse_cons_neg (c : Char) (cs : List Char)
    (h : (c == '-' || isWs c) = false) : tryCollapse (c :: cs) = none := by
  simp only [tryCollapse]
  rw [if_neg]
  simp only [Bool.or_eq_false_iff] at h
  simp [h.2]
  intro hc
  exact absurd (by simp [hc]) (Bool.eq_false_iff.mp h.1)

theorem collapse_props :
    ∀ n (l : List Char), l.length ≤ n →
      (∀ c ∈ l, ((isWordChar c && !c.isUpper) || (c == '-' || isWs c)) = true) →
      (∀ c ∈ subScan tryCollapse l, ((isWordChar c && !c.isUpper) || c == '-') = true) ∧
      noDoubleChar '-' (subScan tryCollapse l) = true ∧
      ((subScan tryCollapse l).head? = some '-' →
        ∃ d, l.head? = some d ∧ (d == '-' || isWs d) = true) := by
  intro n
  induction n with
  | zero =>
    intro l hlen hall
    have hl : l = [] := List.eq_nil_of_length_eq_zero (by omega)
    subst hl
    exact ⟨fun c hc => absurd hc (by simp [subScan_nil]), by simp [subScan_nil, noDoubleChar],
      by simp [subScan_nil]⟩
  | succ n ih =>
    intro l hlen hall
    cases l with
    | nil =>
      exact ⟨fun c hc => absurd hc (by simp [subScan_nil]), by simp [subScan_nil, noDoubleChar],
        by simp [subScan_nil]⟩
    | cons c cs =>
      by_cases hdw : (c == '-' || isWs c) = true
      · rw [subScan_cons_some _ consumes_tryCollapse _ _ _ _ (tryCollapse_cons_pos c cs hdw)]
        have hdrop : (c :: cs).dropWhile (fun d => d == '-' || isWs d)
            = cs.dropWhile (fun d => d == '-' || isWs d) :=
          List.dropWhile_cons_of_pos hdw
        have hsub : ∀ x ∈ (c :: cs).dropWhile (fun d => d == '-' || isWs d), x ∈ c :: cs :=
          fun x hx => (List.dropWhile_suffix _).subset hx
        have hlen2 : ((c :: cs).dropWhile (fun d => d == '-' || isWs d)).length ≤ n := by
          rw [hdrop]
          have := (List.dropWhile_suffix (p := fun d => d == '-' || isWs d) (l := cs)).length_le
          simp only [List.length_cons] at hlen
          omega
        obtain ⟨ih1, ih2, ih3⟩ := ih _ hlen2 (fun x hx => hall x (hsub x hx))
        have houthead :
            (subScan tryCollapse ((c :: cs).dropWhile (fun d => d == '-' || isWs d))).head?
              ≠ some '-' := by
          intro hh
          obtain ⟨d, hd1, hd2⟩ := ih3 hh
          exact absurd hd2 (by rw [head?_dropWhile_neg _ _ _ hd1]; simp)
        refine ⟨?_, ?_, ?_⟩
        · intro x hx
          rcases List.mem_append.mp hx with hx1 | hx2
          · simp only [List.mem_singleton] at hx1
            subst hx1
            simp
          · exact ih1 x hx2
        · rw [List.singleton_append]
          exact noDoubleChar_cons '-' '-' _ ih2 (fun _ => houthead)
        · intro _
          exact ⟨c, rfl, hdw⟩
      · have hdwf : (c == '-' || isWs c) = false := Bool.eq_false_iff.mpr hdw
        rw [subScan_cons_none _ _ _ (tryCollapse_cons_neg c cs hdwf)]
        have hlen2 : cs.length ≤ n := by simp only [List.length_cons] at hlen; omega
        obtain ⟨ih1, ih2, ih3⟩ := ih cs hlen2 (fun x hx => hall x (List.mem_cons_of_mem _ hx))
        have hcA : ((isWordChar c && !c.isUpper) || c == '-') = true := by
          have := hall c (List.mem_cons_self _ _)
          simp only [Bool.or_eq_false_iff] at hdwf
          simp only [Bool.or_eq_true] at this ⊢
          rcases this with h1 | h2
          · exact Or.inl h1
          · rw [hdwf.1, hdwf.2] at h2
            exact absurd h2 (by simp)
        refine ⟨?_, ?_, ?_⟩
        · intro x hx
          rcases List.mem_cons.mp hx with hx1 | hx2
          · subst hx1; exact hcA
          · exact ih1 x hx2
        · refine noDoubleChar_cons '-' c _ ih2 (fun hc => ?_)
          subst hc
          simp only [Bool.or_eq_false_iff] at hdwf
          exact absurd hdwf.1 (by simp)
        · intro hh
          simp only [List.head?_cons, Option.some.injEq] at hh
          subst hh
          simp only [Bool.or_eq_false_iff] at hdwf
          exact absurd hdwf.1 (by simp)

theorem collapse_id : ∀ l : List Char, (∀ c ∈ l, isWs c = false) →
    noDoubleChar '-' l = true → subScan tryCollapse l = l := by
  intro l
  induction l with
  | nil => intro _ _; rfl
  | cons c cs ih =>
    intro hws hdd
    by_cases hc : c = '-'
    · subst hc
      rw [subScan_cons_some _ consumes_tryCollapse _ _ _ _
        (tryCollapse_cons_pos _ _ (by decide))]
      have hdrop : ('-' :: cs).dropWhile (fun d => d == '-' || isWs d) = cs := by
        rw [List.dropWhile_cons_of_pos (by decide)]
        cases cs with
        | nil => rfl
        | cons b bs =>
          apply List.dropWhile_cons_of_neg
          have hb : ¬ b = '-' := by
            intro hb
            subst hb
            simp [noDoubleChar] at hdd
          have hw : isWs b = false := hws b (by simp)
          simp [hb, hw]
      rw [hdrop,
        ih (fun x hx => hws x (List.mem_cons_of_mem _ hx)) (noDoubleChar_tail _ _ _ hdd)]
      rfl
    · have hw : isWs c = false := hws c (List.mem_cons_self _ _)
      have hdw : (c == '-' || isWs c) = false := by simp [hc, hw]
      rw [subScan_cons_none _ _ _ (tryCollapse_cons_neg _ _ hdw),
        ih (fun x hx => hws x (List.mem_cons_of_mem _ hx)) (noDoubleChar_tail _ _ _ hdd)]

theorem create_anchor_id_id_of_normalized (l : List Char)
    (h : normalizedSlug l = true) : create_anchor_id l = l := by
  simp only [normalizedSlug, Bool.and_eq_true, List.all_eq_true, bne_iff_ne, ne_eq] at h
  obtain ⟨⟨⟨hall, hdd⟩, hh⟩, hl⟩ := h
  have hws : ∀ c ∈ l, isWs c = false := by
    intro c hc
    have := hall c hc
    simp only [Bool.or_eq_true, Bool.and_eq_true, beq_iff_eq] at this
    rcases this with ⟨hw, -⟩ | hd
    · exact isWs_eq_false_of_isWordChar c hw
    · subst hd; decide
  have h1 : subScan tryStripTag l = l := by
    apply subScan_id
    intro c cs hs
    apply tryStripTag_none
    intro hm
    have := hall '<' (hs.subset hm)
    exact absurd this (by decide)
  have h2 : l.map Char.toLower = l := by
    have : ∀ c ∈ l, Char.toLower c = c := by
      intro c hc
      have := hall c hc
      simp only [Bool.or_eq_true, Bool.and_eq_true, beq_iff_eq, Bool.not_eq_true'] at this
      rcases this with ⟨-, hup⟩ | hd
      · exact toLower_eq_self_of_not_isUpper c hup
      · subst hd; decide
    rw [List.map_congr_left this, List.map_id' l]
  have h3 : l.filter (fun c => isWordChar c || isWs c || c == '-') = l := by
    rw [List.filter_eq_self]
    intro c hc
    have := hall c hc
    simp only [Bool.or_eq_true, Bool.and_eq_true] at this ⊢
    rcases this with ⟨hw, -⟩ | hd
    · exact Or.inl (Or.inl hw)
    · exact Or.inr hd
  have h4 : subScan tryCollapse l = l := collapse_id l hws hdd
  simp only [create_anchor_id]
  rw [h1, h2, h3, h4, stripHyphens_id l (by simpa using hh) (by simpa using hl)]

theorem create_anchor_id_normalized (s : List Char) :
    normalizedSlug (create_anchor_id s) = true := by
  simp only [create_anchor_id]
  have hall3 : ∀ c ∈ ((subScan tryStripTag s).map Char.toLower).filter
      (fun c => isWordChar c || isWs c || c == '-'),
      ((isWordChar c && !c.isUpper) || (c == '-' || isWs c)) = true := by
    intro c hc
    obtain ⟨hmem, hkeep⟩ := List.mem_filter.mp hc
    obtain ⟨a, ha, hfa⟩ := List.mem_map.mp hmem
    have hup : c.isUpper = false := hfa ▸ toLower_not_isUpper a
    simp only [Bool.or_eq_true] at hkeep ⊢
    rcases hkeep with (hw | hs2) | hd
    · exact Or.inl (by simp [hw, hup])
    · exact Or.inr (Or.inr hs2)
    · exact Or.inr (Or.inl hd)
  obtain ⟨p1, p2, -⟩ := collapse_props _ _ le_rfl hall3
  simp only [normalizedSlug, Bool.and_eq_true]
  refine ⟨⟨⟨?_, ?_⟩, ?_⟩, ?_⟩
  · rw [List.all_eq_true]
    intro c hc
    exact p1 c (stripHyphens_subset _ c hc)
  · exact stripHyphens_noDoubleChar _ _ p2
  · simpa [bne_iff_ne] using stripHyphens_head _
  · simpa [bne_iff_ne] using stripHyphens_last _

/-- C8: `create_anchor_id` is idempotent and its output is a normalized slug:
    only lowercase word characters and single (non-consecutive) hyphens, with
    no leading or trailing hyphen. -/
theorem c8_create_anchor_id_idempotent :
    ∀ s : List Char,
      create_anchor_id (create_anchor_id s) = create_anchor_id s ∧
      normalizedSlug (create_anchor_id s) = true := fun s =>
  ⟨create_anchor_id_id_of_normalized _ (create_anchor_id_normalized s),
    create_anchor_id_normalized s⟩

/- Claim C6: convert_tables emits balanced table tags. -/

theorem tagBalanceOk_skip (o c x : List Char) (xs : List (List Char)) (d : Nat)
    (hx1 : x ≠ o) (hx2 : x ≠ c) :
    tagBalanceOk o c (x :: xs) d = tagBalanceOk o c xs d := by
  simp only [tagBalanceOk, if_neg hx1, if_neg hx2]

theorem tagBalanceOk_skipAll (o c : List Char) (A B : List (List Char)) (d : Nat)
    (h : ∀ x ∈ A, x ≠ o ∧ x ≠ c) :
    tagBalanceOk o c (A ++ B) d = tagBalanceOk o c B d := by
  induction A with
  | nil => rfl
  | cons x xs ih =>
    rw [List.cons_append,
      tagBalanceOk_skip o c x _ d (h x (List.mem_cons_self _ _)).1
        (h x (List.mem_cons_self _ _)).2,
      ih (fun y hy => h y (List.mem_cons_of_mem _ hy))]

theorem tagBalanceOk_open (o c : List Char) (xs : List (List Char)) (d : Nat) :
    tagBalanceOk o c (o :: xs) d = tagBalanceOk o c xs (d + 1) := by
  simp [tagBalanceOk]

theorem tagBalanceOk_close (o c : List Char) (xs : List (List Char)) (d : Nat)
    (hne : c ≠ o) (hd : d ≠ 0) :
    tagBalanceOk o c (c :: xs) d = tagBalanceOk o c xs (d - 1) := by
  simp [tagBalanceOk, if_neg hne, hd]

theorem td_ne_short (cell t : List Char) (ht : t.length < 9) :
    lc "<td>" ++ (cell ++ lc "</td>") ≠ t := by
  intro h
  have := congrArg List.length h
  simp only [List.length_append, lc] at this
  simp only [List.length_cons, List.length_nil] at this ht
  omega

theorem th_ne_short (cell t : List Char) (ht : t.length < 9) :
    lc "<th>" ++ (cell ++ lc "</th>") ≠ t := by
  intro h
  have := congrArg List.length h
  simp only [List.length_append, lc] at this
  simp only [List.length_cons, List.length_nil] at this ht
  omega

theorem rowLines_skip (line : List Char) (o c : List Char)
    (ho : o ∈ tableTagLines) (hc : c ∈ tableTagLines) :
    ∀ x ∈ rowLines line, x ≠ o ∧ x ≠ c := by
  have key : ∀ x ∈ rowLines line, ∀ t ∈ tableTagLines, x ≠ t := by
    intro x hx t ht
    simp only [rowLines] at hx
    split at hx
    · exact absurd hx (List.not_mem_nil x)
    · rcases List.mem_cons.mp hx with hx1 | hx1
      · subst hx1
        fin_cases ht <;> decide
      · rcases List.mem_append.mp hx1 with hx2 | hx2
        · obtain ⟨cell, -, hcell⟩ := List.mem_map.mp hx2
          subst hcell
          apply td_ne_short
          fin_cases ht <;> decide
        · simp only [List.mem_singleton] at hx2
          subst hx2
          fin_cases ht <;> decide
  exact fun x hx => ⟨key x hx o ho, key x hx c hc⟩

theorem thCells_skip (line : List Char) (o c : List Char)
    (ho : o ∈ tableTagLines) (hc : c ∈ tableTagLines) :
    ∀ x ∈ (tableCells line).map (fun cl => lc "<th>" ++ (cl ++ lc "</th>")),
      x ≠ o ∧ x ≠ c := by
  have key : ∀ x ∈ (tableCells line).map (fun cl => lc "<th>" ++ (cl ++ lc "</th>")),
      ∀ t ∈ tableTagLines, x ≠ t := by
    intro x hx t ht
    obtain ⟨cell, -, hcell⟩ := List.mem_map.mp hx
    subst hcell
    apply th_ne_short
    fin_cases ht <;> decide
  exact fun x hx => ⟨key x hx o ho, key x hx c hc⟩

theorem tag_notin_skip (line : List Char) (o c : List Char)
    (ho : o ∈ tableTagLines) (hc : c ∈ tableTagLines)
    (h : line ∉ tableTagLines) : line ≠ o ∧ line ≠ c :=
  ⟨fun he => h (he ▸ ho), fun he => h (he ▸ hc)⟩

theorem convertTablesGo_cons_row (line : List Char) (rest : List (List Char))
    (h : isTableLine line = true) :
    convertTablesGo (line :: rest) true = rowLines line ++ convertTablesGo rest true := by
  simp [convertTablesGo, h]

theorem convertTablesGo_cons_head (line : List Char) (rest : List (List Char))
    (h : isTableLine line = true) (hLA : lookaheadSep rest = true) :
    convertTablesGo (line :: rest) false = headLines line ++ convertTablesGo rest true := by
  simp [convertTablesGo, h, hLA]

theorem convertTablesGo_cons_open (line : List Char) (rest : List (List Char))
    (h : isTableLine line = true) (hLA : lookaheadSep rest = false) :
    convertTablesGo (line :: rest) false
      = [lc "<table>", lc "<tbody>"] ++ rowLines line ++ convertTablesGo rest true := by
  simp [convertTablesGo, h, hLA]

theorem convertTablesGo_cons_other (line : List Char) (rest : List (List Char))
    (b : Bool) (h : isTableLine line = false) :
    convertTablesGo (line :: rest) b
      = (if b then [lc "</tbody>", lc "</table>"] else [])
          ++ line :: convertTablesGo rest false := by
  simp [convertTablesGo, h]

theorem convertTablesGo_table_balanced :
    ∀ (lines : List (List Char)) (b : Bool),
      (∀ line ∈ lines, line ∉ tableTagLines) →
      tagBalanceOk (lc "<table>") (lc "</table>") (convertTablesGo lines b)
        (cond b 1 0) = true := by
  intro lines
  induction lines with
  | nil => intro b _; cases b <;> decide
  | cons line rest ih =>
    intro b hno
    have hrest := fun l hl => hno l (List.mem_cons_of_mem _ hl)
    by_cases hT : isTableLine line = true
    · cases b with
      | true =>
        rw [convertTablesGo_cons_row line rest hT,
          tagBalanceOk_skipAll _ _ _ _ _ (rowLines_skip line _ _ (by decide) (by decide))]
        exact ih true hrest
      | false =>
        by_cases hLA : lookaheadSep rest = true
        · rw [convertTablesGo_cons_head line rest hT hLA]
          simp only [headLines, List.append_assoc, List.cons_append, List.nil_append]
          rw [tagBalanceOk_open,
            tagBalanceOk_skip _ _ _ _ _ (by decide) (by decide),
            tagBalanceOk_skip _ _ _ _ _ (by decide) (by decide),
            tagBalanceOk_skipAll _ _ _ _ _ (thCells_skip line _ _ (by decide) (by decide)),
            tagBalanceOk_skip _ _ _ _ _ (by decide) (by decide),
            tagBalanceOk_skip _ _ _ _ _ (by decide) (by decide),
            tagBalanceOk_skip _ _ _ _ _ (by decide) (by decide)]
          exact ih true hrest
        · rw [convertTablesGo_cons_open line rest hT (Bool.eq_false_iff.mpr hLA)]
          simp only [List.append_assoc, List.cons_append, List.nil_append]
          rw [tagBalanceOk_open,
            tagBalanceOk_skip _ _ _ _ _ (by decide) (by decide),
            tagBalanceOk_skipAll _ _ _ _ _ (rowLines_skip line _ _ (by decide) (by decide))]
          exact ih true hrest
    · have hTf : isTableLine line = false := Bool.eq_false_iff.mpr hT
      have hskip := tag_notin_skip line (lc "<table>") (lc "</table>")
        (by decide) (by decide) (hno line (List.mem_cons_self _ _))
      cases b with
      | true =>
        rw [convertTablesGo_cons_other line rest true hTf]
        simp only [if_true, List.cons_append, List.nil_append]
        rw [tagBalanceOk_skip _ _ _ _ _ (by decide) (by decide),
          tagBalanceOk_close _ _ _ _ (by decide) (by decide),
          tagBalanceOk_skip _ _ _ _ _ hskip.1 hskip.2]
        exact ih false hrest
      | false =>
        rw [convertTablesGo_cons_other line rest false hTf]
        rw [if_neg (by simp), List.nil_append,
          tagBalanceOk_skip _ _ _ _ _ hskip.1 hskip.2]
        exact ih false hrest

theorem convertTablesGo_tbody_balanced :
    ∀ (lines : List (List Char)) (b : Bool),
      (∀ line ∈ lines, line ∉ tableTagLines) →
      tagBalanceOk (lc "<tbody>") (lc "</tbody>") (convertTablesGo lines b)
        (cond b 1 0) = true := by
  intro lines
  induction lines with
  | nil => intro b _; cases b <;> decide
  | cons line rest ih =>
    intro b hno
    have hrest := fun l hl => hno l (List.mem_cons_of_mem _ hl)
    by_cases hT : isTableLine line = true
    · cases b with
      | true =>
        rw [convertTablesGo_cons_row line rest hT,
          tagBalanceOk_skipAll _ _ _ _ _ (rowLines_skip line _ _ (by decide) (by decide))]
        exact ih true hrest
      | false =>
        by_cases hLA : lookaheadSep rest = true
        · rw [convertTablesGo_cons_head line rest hT hLA]
          simp only [headLines, List.append_assoc, List.cons_append, List.nil_append]
          rw [tagBalanceOk_skip _ _ _ _ _ (by decide) (by decide),
            tagBalanceOk_skip _ _ _ _ _ (by decide) (by decide),
            tagBalanceOk_skip _ _ _ _ _ (by decide) (by decide),
            tagBalanceOk_skipAll _ _ _ _ _ (thCells_skip line _ _ (by decide) (by decide)),
            tagBalanceOk_skip _ _ _ _ _ (by decide) (by decide),
            tagBalanceOk_skip _ _ _ _ _ (by decide) (by decide),
            tagBalanceOk_open]
          exact ih true hrest
        · rw [convertTablesGo_cons_open line rest hT (Bool.eq_false_iff.mpr hLA)]
          simp only [List.append_assoc, List.cons_append, List.nil_append]
          rw [tagBalanceOk_skip _ _ _ _ _ (by decide) (by decide),
            tagBalanceOk_open,
            tagBalanceOk_skipAll _ _ _ _ _ (rowLines_skip line _ _ (by decide) (by decide))]
          exact ih true hrest
    · have hTf : isTableLine line = false := Bool.eq_false_iff.mpr hT
      have hskip := tag_notin_skip line (lc "<tbody>") (lc "</tbody>")
        (by decide) (by decide) (hno line (List.mem_cons_self _ _))
      cases b with
      | true =>
        rw [convertTablesGo_cons_other line rest true hTf]
        simp only [if_true, List.cons_append, List.nil_append]
        rw [tagBalanceOk_close _ _ _ _ (by decide) (by decide),
          tagBalanceOk_skip _ _ _ _ _ (by decide) (by decide),
          tagBalanceOk_skip _ _ _ _ _ hskip.1 hskip.2]
        exact ih false hrest
      | false =>
        rw [convertTablesGo_cons_other line rest false hTf]
        rw [if_neg (by simp), List.nil_append,
          tagBalanceOk_skip _ _ _ _ _ hskip.1 hskip.2]
        exact ih false hrest

theorem convertTablesGo_thead_balanced :
    ∀ (lines : List (List Char)) (b : Bool),
      (∀ line ∈ lines, line ∉ tableTagLines) →
      tagBalanceOk (lc "<thead>") (lc "</thead>") (convertTablesGo lines b) 0 = true := by
  intro lines
  induction lines with
  | nil => intro b _; cases b <;> decide
  | cons line rest ih =>
    intro b hno
    have hrest := fun l hl => hno l (List.mem_cons_of_mem _ hl)
    by_cases hT : isTableLine line = true
    · cases b with
      | true =>
        rw [convertTablesGo_cons_row line rest hT,
          tagBalanceOk_skipAll _ _ _ _ _ (rowLines_skip line _ _ (by decide) (by decide))]
        exact ih true hrest
      | false =>
        by_cases hLA : lookaheadSep rest = true
        · rw [convertTablesGo_cons_head line rest hT hLA]
          simp only [headLines, List.append_assoc, List.cons_append, List.nil_append]
          rw [tagBalanceOk_skip _ _ _ _ _ (by decide) (by decide),
            tagBalanceOk_open,
            tagBalanceOk_skip _ _ _ _ _ (by decide) (by decide),
            tagBalanceOk_skipAll _ _ _ _ _ (thCells_skip line _ _ (by decide) (by decide)),
            tagBalanceOk_skip _ _ _ _ _ (by decide) (by decide),
            tagBalanceOk_close _ _ _ _ (by decide) (by decide),
            tagBalanceOk_skip _ _ _ _ _ (by decide) (by decide)]
          exact ih true hrest
        · rw [convertTablesGo_cons_open line rest hT (Bool.eq_false_iff.mpr hLA)]
          simp only [List.append_assoc, List.cons_append, List.nil_append]
          rw [tagBalanceOk_skip _ _ _ _ _ (by decide) (by decide),
            tagBalanceOk_skip _ _ _ _ _ (by decide) (by decide),
            tagBalanceOk_skipAll _ _ _ _ _ (rowLines_skip line _ _ (by decide) (by decide))]
          exact ih true hrest
    · have hTf : isTableLine line = false := Bool.eq_false_iff.mpr hT
      have hskip := tag_notin_skip line (lc "<thead>") (lc "</thead>")
        (by decide) (by decide) (hno line (List.mem_cons_self _ _))
      cases b with
      | true =>
        rw [convertTablesGo_cons_other line rest true hTf]
        simp only [if_true, List.cons_append, List.nil_append]
        rw [tagBalanceOk_skip _ _ _ _ _ (by decide) (by decide),
          tagBalanceOk_skip _ _ _ _ _ (by decide) (by decide),
          tagBalanceOk_skip _ _ _ _ _ hskip.1 hskip.2]
        exact ih false hrest
      | false =>
        rw [convertTablesGo_cons_other line rest false hTf]
        rw [if_neg (by simp), List.nil_append,
          tagBalanceOk_skip _ _ _ _ _ hskip.1 hskip.2]
        exact ih false hrest

/-- C6: `convert_tables` emits balanced table markup: writing its output as the
    list of lines it joins, the `<table>`/`</table>`, `<thead>`/`</thead>` and
    `<tbody>`/`</tbody>` tag lines are balanced — every close has a matching
    earlier open, and nothing stays open at the end, including when the input
    ends while still inside a table.  The hypothesis separates the emitted tags
    from copied input text: no input line is itself one of the six tag lines. -/
theorem c6_convert_tables_balanced (s : List Char)
    (h : ∀ line ∈ splitOnNl s, line ∉ tableTagLines) :
    convert_tables s = joinNl (convertTablesGo (splitOnNl s) false) ∧
    tagBalanceOk (lc "<table>") (lc "</table>")
      (convertTablesGo (splitOnNl s) false) 0 = true ∧
    tagBalanceOk (lc "<thead>") (lc "</thead>")
      (convertTablesGo (splitOnNl s) false) 0 = true ∧
    tagBalanceOk (lc "<tbody>") (lc "</tbody>")
      (convertTablesGo (splitOnNl s) false) 0 = true :=
  ⟨rfl, convertTablesGo_table_balanced _ false h,
    convertTablesGo_thead_balanced _ false h,
    convertTablesGo_tbody_balanced _ false h⟩

/-- C6 witness: the balance theorem applied to a concrete document whose input
    ends while still inside a table. -/
theorem c6_witness :
    (∀ line ∈ splitOnNl (lc "|a|b|\n|-|-|\n|1|2|\nmid\n|x|"), line ∉ tableTagLines) ∧
    (convert_tables (lc "|a|b|\n|-|-|\n|1|2|\nmid\n|x|")
        = joinNl (convertTablesGo (splitOnNl (lc "|a|b|\n|-|-|\n|1|2|\nmid\n|x|")) false) ∧
      tagBalanceOk (lc "<table>") (lc "</table>")
        (convertTablesGo (splitOnNl (lc "|a|b|\n|-|-|\n|1|2|\nmid\n|x|")) false) 0 = true ∧
      tagBalanceOk (lc "<thead>") (lc "</thead>")
        (convertTablesGo (splitOnNl (lc "|a|b|\n|-|-|\n|1|2|\nmid\n|x|")) false) 0 = true ∧
      tagBalanceOk (lc "<tbody>") (lc "</tbody>")
        (convertTablesGo (splitOnNl (lc "|a|b|\n|-|-|\n|1|2|\nmid\n|x|")) false) 0 = true) :=
  ⟨by decide, c6_convert_tables_balanced _ (by decide)⟩

/- Shared lemmas for tracing the converter on concrete input shapes. -/

theorem not_mem_append (c : Char) (u v : List Char) (hu : c ∉ u) (hv : c ∉ v) :
    c ∉ u ++ v := by
  intro hm
  rcases List.mem_append.mp hm with h | h
  · exact hu h
  · exact hv h

theorem not_mem_of_all_safe (p : Char → Bool) (t : List Char) (h : t.all p = true)
    (c : Char) (hc : p c = false) : c ∉ t := by
  intro hm
  have := List.all_eq_true.mp h c hm
  rw [hc] at this
  exact absurd this (by simp)

theorem isPrefixOf_head_mismatch (a : Char) (p : List Char) (c : Char)
    (cs : List Char) (h : ¬ a = c) : (a :: p).isPrefixOf (c :: cs) = false := by
  rw [cons_isPrefixOf_cons]
  simp [h]

theorem containsTok_append_false (tok u v : List Char)
    (hu : ∀ s, s <:+ u → s ≠ [] → tok.isPrefixOf (s ++ v) = false)
    (hv : containsTok tok v = false) : containsTok tok (u ++ v) = false := by
  induction u with
  | nil => exact hv
  | cons c us ih =>
    show (tok.isPrefixOf (c :: (us ++ v)) || containsTok tok (us ++ v)) = false
    rw [show c :: (us ++ v) = (c :: us) ++ v from rfl,
      hu (c :: us) List.suffix_rfl (by simp),
      ih (fun s hs hne => hu s (hs.trans (List.suffix_cons c us)) hne)]
    rfl

theorem suffix_no_prefix_of_not_mem (a : Char) (p part v : List Char)
    (h : a ∉ part) :
    ∀ s, s <:+ part → s ≠ [] → (a :: p).isPrefixOf (s ++ v) = false := by
  intro s hs hne
  cases s with
  | nil => exact absurd rfl hne
  | cons c cs =>
    have hcm : c ∈ part := hs.subset (List.mem_cons_self _ _)
    exact isPrefixOf_head_mismatch a p c _ (fun he => h (he ▸ hcm))

theorem containsTok_false_of_head_not_mem (a : Char) (p l : List Char)
    (h : a ∉ l) : containsTok (a :: p) l = false := by
  induction l with
  | nil => rfl
  | cons c cs ih =>
    show ((a :: p).isPrefixOf (c :: cs) || containsTok (a :: p) cs) = false
    rw [isPrefixOf_head_mismatch a p c cs
        (fun he => h (he ▸ List.mem_cons_self _ _)),
      ih (fun hm => h (List.mem_cons_of_mem _ hm))]
    rfl

theorem splitOnTok_none_of_head_not_mem (a : Char) (p l : List Char)
    (h : a ∉ l) : splitOnTok (a :: p) l = none := by
  induction l with
  | nil => rfl
  | cons c cs ih =>
    simp only [splitOnTok,
      isPrefixOf_head_mismatch a p c cs (fun he => h (he ▸ List.mem_cons_self _ _))]
    rw [ih (fun hm => h (List.mem_cons_of_mem _ hm))]
    simp

theorem splitParas_single (l : List Char) (h : splitOnTok (lc "\n\n") l = none) :
    splitParas l = [l] := by
  unfold splitParas
  generalize l.length = n
  cases n with
  | zero => rfl
  | succ m =>
    simp only [splitParasF]
    rw [show lc "\n\n" = '\n' :: lc "\n" from rfl] at *
    rw [h]

theorem pyStrip_id (l : List Char)
    (h1 : ∀ c, l.head? = some c → isWs c = false)
    (h2 : ∀ c, l.getLast? = some c → isWs c = false) : pyStrip l = l := by
  unfold pyStrip
  have hd1 : l.dropWhile isWs = l := by
    cases l with
    | nil => rfl
    | cons c cs => exact List.dropWhile_cons_of_neg (by simp [h1 c rfl])
  rw [hd1]
  have hd2 : l.reverse.dropWhile isWs = l.reverse := by
    cases hr : l.reverse with
    | nil => rfl
    | cons c cs =>
      apply List.dropWhile_cons_of_neg
      have : l.getLast? = some c := by rw [← List.head?_reverse, hr]; rfl
      simp [h2 c this]
  rw [hd2, List.reverse_reverse]

theorem paraF_id_lt (l : List Char) (h : (lc "<").isPrefixOf l = true)
    (hstrip : pyStrip l = l) : paraF l = l := by
  simp only [paraF, hstrip, h]
  simp

theorem joinParas_single (l : List Char) : joinParas [l] = l := rfl

theorem isTableLine_false_of_no_pipe (line : List Char) (h : '|' ∉ line) :
    isTableLine line = false := by
  simp only [isTableLine, Bool.and_eq_false_iff]
  left; left
  by_contra hc
  simp only [Bool.not_eq_false] at hc
  obtain ⟨x, hx1, hx2⟩ := List.contains_iff_exists_mem_beq.mp hc
  have hx : x = '|' := by simpa [eq_comm] using beq_iff_eq.mp hx2
  exact h (hx ▸ hx1)

theorem convert_tables_id (s : List Char)
    (h : ∀ line ∈ splitOnNl s, isTableLine line = false) : convert_tables s = s := by
  unfold convert_tables
  have key : ∀ lines : List (List Char), (∀ line ∈ lines, isTableLine line = false) →
      convertTablesGo lines false = lines := by
    intro lines
    induction lines with
    | nil => intro _; rfl
    | cons line rest ih =>
      intro hl
      rw [convertTablesGo_cons_other line rest false (hl line (List.mem_cons_self _ _)),
        if_neg (by simp), List.nil_append,
        ih (fun x hx => hl x (List.mem_cons_of_mem _ hx))]
  rw [key _ h, joinNl_splitOnNl]

theorem anchor_chars (s : List Char) (c : Char) (hc : c ∈ create_anchor_id s) :
    ((isWordChar c && !c.isUpper) || c == '-') = true := by
  have := create_anchor_id_normalized s
  simp only [normalizedSlug, Bool.and_eq_true, List.all_eq_true] at this
  exact this.1.1.1 c hc

theorem not_mem_anchor (s : List Char) (c : Char) (h1 : isWordChar c = false)
    (h2 : ¬ c = '-') : c ∉ create_anchor_id s := by
  intro hm
  have := anchor_chars s c hm
  rw [h1] at this
  simp only [Bool.false_and, Bool.false_or, beq_iff_eq] at this
  exact h2 this

theorem mem_of_head?_eq (a : Char) (l : List Char) (h : l.head? = some a) : a ∈ l := by
  cases l with
  | nil => exact absurd h (by simp)
  | cons c cs =>
    rw [List.head?_cons] at h
    injection h with h'
    rw [← h']
    exact List.mem_cons_self _ _

theorem single_isPrefixOf_of_head (a : Char) (l : List Char) (h : l.head? = some a) :
    ([a]).isPrefixOf l = true := by
  cases l with
  | nil => exact absurd h (by simp)
  | cons c cs =>
    rw [List.head?_cons] at h
    injection h with h'
    rw [← h', cons_isPrefixOf_cons]
    simp [List.isPrefixOf]

theorem getLast?_append_right (u v : List Char) (hv : v ≠ []) :
    (u ++ v).getLast? = v.getLast? := by
  rw [← List.head?_reverse, ← List.head?_reverse, List.reverse_append]
  cases hr : v.reverse with
  | nil => exact absurd (List.reverse_eq_nil_iff.mp hr) hv
  | cons c cs => rfl

theorem isPrefixOf_append_false_of (tok s v : List Char)
    (h1 : tok.isPrefixOf s = false) (h2 : tok.take s.length ≠ s) :
    tok.isPrefixOf (s ++ v) = false := by
  induction tok generalizing s with
  | nil => simp [List.isPrefixOf] at h1
  | cons a p ih =>
    cases s with
    | nil => simp at h2
    | cons c cs =>
      rw [List.cons_append, cons_isPrefixOf_cons]
      rw [cons_isPrefixOf_cons] at h1
      by_cases hac : a = c
      · subst hac
        simp only [beq_self_eq_true, Bool.true_and] at h1 ⊢
        refine ih cs h1 (fun hteq => h2 ?_)
        rw [List.length_cons, List.take_succ_cons, hteq]
      · simp [hac]

theorem no_tok_at_boundary (tok part v : List Char)
    (hchk : ∀ s ∈ part.tails,
      (tok.isPrefixOf s = false ∧ tok.take s.length ≠ s) ∨ s = []) :
    ∀ s, s <:+ part → s ≠ [] → tok.isPrefixOf (s ++ v) = false := by
  intro s hs hne
  rcases hchk s ((List.mem_tails s part).mpr hs) with ⟨h1, h2⟩ | he
  · exact isPrefixOf_append_false_of tok s v h1 h2
  · exact absurd he hne

/-- All passes of the kindle converter after the fenced-code pass leave a
    newline-free string unchanged when it starts with `<`, ends with `>`, and
    contains none of the trigger characters of the remaining passes. -/
theorem postFencePasses_id (S : List Char)
    (hnl : '\n' ∉ S) (hbt : '`' ∉ S) (hst : '*' ∉ S) (hlb : '[' ∉ S)
    (hhead : S.head? = some '<') (hlast : S.getLast? = some '>')
    (hli : containsTok (lc "<li>") S = false) (hpipe : '|' ∉ S) :
    joinParas ((splitParas (convert_tables (subLines hrLine (subLines blockquoteLine
      (subScan tryWrap (subLines bulletLine (subLines numberedLine (subScan tryLink
        (subScan (tryDelim (lc "*") (lc "<em>") (lc "</em>"))
          (subScan (tryDelim (lc "**") (lc "<strong>") (lc "</strong>"))
            (subScan (tryDelim (lc "***") (lc "<strong><em>") (lc "</em></strong>"))
              (subScan tryInlineCode S)))))))))))).map paraF) = S := by
  have hmem : '<' ∈ S := mem_of_head?_eq '<' S hhead
  have hsplit : splitOnNl S = [S] := splitOnNl_of_not_mem S hnl
  have hinline : subScan tryInlineCode S = S := subScan_inline_id S hbt
  have hd3 : subScan (tryDelim (lc "***") (lc "<strong><em>") (lc "</em></strong>")) S = S :=
    subScan_delim_id '*' (lc "**") _ _ S hst
  have hd2 : subScan (tryDelim (lc "**") (lc "<strong>") (lc "</strong>")) S = S :=
    subScan_delim_id '*' (lc "*") _ _ S hst
  have hd1 : subScan (tryDelim (lc "*") (lc "<em>") (lc "</em>")) S = S :=
    subScan_delim_id '*' [] _ _ S hst
  have hlink : subScan tryLink S = S := subScan_link_id S hlb
  have hnum : subLines numberedLine S = S := subLines_congr_id _ _ (by
    rw [hsplit]; intro line hl; rw [List.mem_singleton] at hl; subst hl
    refine numberedLine_id_of_head _ (fun d hd => ?_)
    rw [hhead] at hd; injection hd with hd'; rw [← hd']; decide)
  have hbul : subLines bulletLine S = S := subLines_congr_id _ _ (by
    rw [hsplit]; intro line hl; rw [List.mem_singleton] at hl; subst hl
    refine bulletLine_id _ (fun c hc => ?_)
    rw [hhead] at hc; injection hc with hc'; rw [← hc']; decide)
  have hwrap : subScan tryWrap S = S := subScan_wrap_id S hli
  have hquote : subLines blockquoteLine S = S := subLines_congr_id _ _ (by
    rw [hsplit]; intro line hl; rw [List.mem_singleton] at hl; subst hl
    exact blockquoteLine_id _ (by rw [hhead]; decide))
  have hhr : subLines hrLine S = S := subLines_congr_id _ _ (by
    rw [hsplit]; intro line hl; rw [List.mem_singleton] at hl; subst hl
    exact hrLine_id_of_mem _ '<' hmem (by decide))
  have htab : convert_tables S = S := convert_tables_id S (by
    rw [hsplit]; intro line hl; rw [List.mem_singleton] at hl; subst hl
    exact isTableLine_false_of_no_pipe _ hpipe)
  have hsp : splitParas S = [S] :=
    splitParas_single S (splitOnTok_none_of_head_not_mem '\n' (lc "\n") S hnl)
  have hstrip : pyStrip S = S := pyStrip_id S
    (fun c hc => by rw [hhead] at hc; injection hc with hc'; rw [← hc']; decide)
    (fun c hc => by rw [hlast] at hc; injection hc with hc'; rw [← hc']; decide)
  have hpara : paraF S = S := paraF_id_lt S (single_isPrefixOf_of_head '<' S hhead) hstrip
  rw [hinline, hd3, hd2, hd1, hlink, hnum, hbul, hwrap, hquote, hhr, htab, hsp,
    List.map_cons, List.map_nil, hpara]
  rfl

/-- C3 (amended): for header text over letters, digits, spaces, hyphens and
    underscores, the input line `## t` is converted into exactly one `<h2>`
    element whose id is `create_anchor_id t` and whose body is `t`. -/
theorem c3_header_slug (t : List Char) (ht : t.all c3SafeChar = true) :
    GenerateKindle.simple_markdown_to_html (lc "## " ++ t) =
      lc "<h2 id=\"" ++ create_anchor_id t ++ lc "\">" ++ t ++ lc "</h2>" := by
  have hts : ∀ c : Char, c3SafeChar c = false → c ∉ t :=
    fun c hc => not_mem_of_all_safe _ t ht c hc
  have hnlI : '\n' ∉ lc "## " ++ t :=
    not_mem_append '\n' (lc "## ") t (by decide) (hts '\n' (by decide))
  have hsplitI : splitOnNl (lc "## " ++ t) = [lc "## " ++ t] :=
    splitOnNl_of_not_mem _ hnlI
  have hH1 : subLines (headerLine 1) (lc "## " ++ t) = lc "## " ++ t :=
    subLines_congr_id _ _ (by
      rw [hsplitI]; intro line hl; rw [List.mem_singleton] at hl; subst hl
      simp only [headerLine]
      rw [if_neg]
      intro hpre
      rw [show hashes 1 ++ [' '] = '#' :: ' ' :: [] from by decide,
          show lc "## " ++ t = '#' :: '#' :: ' ' :: t from rfl,
          cons_isPrefixOf_cons] at hpre
      have h2' := ((Bool.and_eq_true _ _).mp hpre).2
      rw [cons_isPrefixOf_cons] at h2'
      have h3' := ((Bool.and_eq_true _ _).mp h2').1
      exact absurd (beq_iff_eq.mp h3') (by decide))
  have hpre2 : (hashes 2 ++ [' ']).isPrefixOf (lc "## " ++ t) = true := by
    rw [show hashes 2 ++ [' '] = '#' :: '#' :: ' ' :: [] from by decide,
        show lc "## " ++ t = '#' :: '#' :: ' ' :: t from rfl,
        cons_isPrefixOf_cons, cons_isPrefixOf_cons, cons_isPrefixOf_cons]
    simp [List.isPrefixOf]
  have hfire : headerLine 2 (lc "## " ++ t) =
      lc "<h2 id=\"" ++ create_anchor_id t ++ lc "\">" ++ t ++ lc "</h2>" := by
    simp only [headerLine]
    rw [if_pos hpre2,
        show lc ("<h" ++ toString 2 ++ " id=\"") = lc "<h2 id=\"" from by decide,
        show lc ("</h" ++ toString 2 ++ ">") = lc "</h2>" from by decide,
        show (lc "## " ++ t).drop (2 + 1) = t from rfl]
  have hH2 : subLines (headerLine 2) (lc "## " ++ t) =
      lc "<h2 id=\"" ++ create_anchor_id t ++ lc "\">" ++ t ++ lc "</h2>" := by
    unfold subLines
    rw [hsplitI, List.map_cons, List.map_nil, hfire]
    rfl
  have hSabs : ∀ c : Char, c3SafeChar c = false → isWordChar c = false → ¬ c = '-' →
      c ∉ lc "<h2 id=\"" → c ∉ lc "\">" → c ∉ lc "</h2>" →
      c ∉ lc "<h2 id=\"" ++ create_anchor_id t ++ lc "\">" ++ t ++ lc "</h2>" :=
    fun c h1 h2 h3 h4 h5 h6 =>
      not_mem_append c _ _ (not_mem_append c _ _ (not_mem_append c _ _
        (not_mem_append c _ _ h4 (not_mem_anchor t c h2 h3)) h5) (hts c h1)) h6
  have hnlS : '\n' ∉ lc "<h2 id=\"" ++ create_anchor_id t ++ lc "\">" ++ t ++ lc "</h2>" :=
    hSabs '\n' (by decide) (by decide) (by decide) (by decide) (by decide) (by decide)
  have hbtS : '`' ∉ lc "<h2 id=\"" ++ create_anchor_id t ++ lc "\">" ++ t ++ lc "</h2>" :=
    hSabs '`' (by decide) (by decide) (by decide) (by decide) (by decide) (by decide)
  have hstS : '*' ∉ lc "<h2 id=\"" ++ create_anchor_id t ++ lc "\">" ++ t ++ lc "</h2>" :=
    hSabs '*' (by decide) (by decide) (by decide) (by decide) (by decide) (by decide)
  have hlbS : '[' ∉ lc "<h2 id=\"" ++ create_anchor_id t ++ lc "\">" ++ t ++ lc "</h2>" :=
    hSabs '[' (by decide) (by decide) (by decide) (by decide) (by decide) (by decide)
  have hpipeS : '|' ∉ lc "<h2 id=\"" ++ create_anchor_id t ++ lc "\">" ++ t ++ lc "</h2>" :=
    hSabs '|' (by decide) (by decide) (by decide) (by decide) (by decide) (by decide)
  have hheadS : (lc "<h2 id=\"" ++ create_anchor_id t ++ lc "\">" ++ t ++
      lc "</h2>").head? = some '<' := rfl
  have hne3 : (lc "</h2>" : List Char) ≠ [] := by decide
  have hlastS : (lc "<h2 id=\"" ++ create_anchor_id t ++ lc "\">" ++ t ++
      lc "</h2>").getLast? = some '>' := by
    rw [getLast?_append_right _ _ hne3]
    decide
  have hliS : containsTok (lc "<li>")
      (lc "<h2 id=\"" ++ create_anchor_id t ++ lc "\">" ++ t ++ lc "</h2>") = false := by
    simp only [List.append_assoc]
    apply containsTok_append_false
    · exact no_tok_at_boundary (lc "<li>") (lc "<h2 id=\"") _ (by decide)
    · apply containsTok_append_false
      · exact suffix_no_prefix_of_not_mem '<' (lc "li>") (create_anchor_id t) _
          (not_mem_anchor t '<' (by decide) (by decide))
      · apply containsTok_append_false
        · exact no_tok_at_boundary (lc "<li>") (lc "\">") _ (by decide)
        · apply containsTok_append_false
          · exact suffix_no_prefix_of_not_mem '<' (lc "li>") t _ (hts '<' (by decide))
          · decide
  have hH3 : subLines (headerLine 3)
      (lc "<h2 id=\"" ++ create_anchor_id t ++ lc "\">" ++ t ++ lc "</h2>") =
      lc "<h2 id=\"" ++ create_anchor_id t ++ lc "\">" ++ t ++ lc "</h2>" :=
    subLines_congr_id _ _ (by
      rw [splitOnNl_of_not_mem _ hnlS]
      intro line hl; rw [List.mem_singleton] at hl; subst hl
      exact headerLine_id 3 _ (by decide) (by rw [hheadS]; decide))
  have hH4 : subLines (headerLine 4)
      (lc "<h2 id=\"" ++ create_anchor_id t ++ lc "\">" ++ t ++ lc "</h2>") =
      lc "<h2 id=\"" ++ create_anchor_id t ++ lc "\">" ++ t ++ lc "</h2>" :=
    subLines_congr_id _ _ (by
      rw [splitOnNl_of_not_mem _ hnlS]
      intro line hl; rw [List.mem_singleton] at hl; subst hl
      exact headerLine_id 4 _ (by decide) (by rw [hheadS]; decide))
  have hH5 : subLines (headerLine 5)
      (lc "<h2 id=\"" ++ create_anchor_id t ++ lc "\">" ++ t ++ lc "</h2>") =
      lc "<h2 id=\"" ++ create_anchor_id t ++ lc "\">" ++ t ++ lc "</h2>" :=
    subLines_congr_id _ _ (by
      rw [splitOnNl_of_not_mem _ hnlS]
      intro line hl; rw [List.mem_singleton] at hl; subst hl
      exact headerLine_id 5 _ (by decide) (by rw [hheadS]; decide))
  have hfence : subScan (tryFence fenceRepl)
      (lc "<h2 id=\"" ++ create_anchor_id t ++ lc "\">" ++ t ++ lc "</h2>") =
      lc "<h2 id=\"" ++ create_anchor_id t ++ lc "\">" ++ t ++ lc "</h2>" :=
    subScan_fence_id fenceRepl _ hbtS
  unfold GenerateKindle.simple_markdown_to_html
  rw [hH1, hH2, hH3, hH4, hH5, hfence]
  exact postFencePasses_id _ hnlS hbtS hstS hlbS hheadS hlastS hliS hpipeS

/-- C3 counterexample: for the header text `*x*`, the converter does not emit
    the text itself as the `<h2>` body — the later emphasis pass rewrites the
    body to `<em>x</em>`, so the claimed output is wrong for this `t`. -/
theorem c3_counterexample :
    ¬ (GenerateKindle.simple_markdown_to_html (lc "## " ++ lc "*x*") =
      lc "<h2 id=\"" ++ create_anchor_id (lc "*x*") ++ lc "\">" ++ lc "*x*" ++ lc "</h2>") := by
  decide

theorem c3_witness :
    (lc "My Header 2").all c3SafeChar = true ∧
    GenerateKindle.simple_markdown_to_html (lc "## " ++ lc "My Header 2") =
      lc "<h2 id=\"" ++ create_anchor_id (lc "My Header 2") ++ lc "\">" ++
        lc "My Header 2" ++ lc "</h2>" :=
  ⟨by decide, c3_header_slug (lc "My Header 2") (by decide)⟩

/- The escape / unescape round trip. -/

theorem replaceChar_cons (x : Char) (r : List Char) (c : Char) (l : List Char) :
    replaceChar x r (c :: l) = (if c = x then r else [c]) ++ replaceChar x r l := by
  simp only [replaceChar]
  by_cases h : c = x
  · rw [if_pos h, if_pos h]
  · rw [if_neg h, if_neg h, List.singleton_append]

theorem replaceChar_append (x : Char) (r : List Char) (u v : List Char) :
    replaceChar x r (u ++ v) = replaceChar x r u ++ replaceChar x r v := by
  induction u with
  | nil => rfl
  | cons c cs ih =>
    rw [List.cons_append]
    simp only [replaceChar]
    by_cases h : c = x
    · rw [if_pos h, if_pos h, ih, List.append_assoc]
    · rw [if_neg h, if_neg h, ih, List.cons_append]

theorem escape_html_cons (c : Char) (b : List Char) :
    escape_html (c :: b) = escPerChar c ++ escape_html b := by
  simp only [escape_html]
  rw [replaceChar_cons '&' (lc "&amp;") c b, replaceChar_append, replaceChar_append]
  congr 1
  by_cases h1 : c = '&'
  · subst h1; rw [if_pos rfl]; decide
  · rw [if_neg h1]
    by_cases h2 : c = '<'
    · subst h2; decide
    · rw [replaceChar_cons '<' (lc "&lt;") c [], if_neg h2,
        show replaceChar '<' (lc "&lt;") ([] : List Char) = [] from rfl, List.append_nil]
      by_cases h3 : c = '>'
      · subst h3; decide
      · rw [replaceChar_cons '>' (lc "&gt;") c [], if_neg h3,
          show replaceChar '>' (lc "&gt;") ([] : List Char) = [] from rfl, List.append_nil]
        simp only [escPerChar, if_neg h1, if_neg h2, if_neg h3]

theorem escape_html_blockConcat (b : List Char) :
    escape_html b = blockConcat escPerChar b := by
  induction b with
  | nil => rfl
  | cons c cs ih => rw [escape_html_cons, ih]; rfl

theorem mem_blockConcat (g : Char → List Char) (b : List Char) (c : Char)
    (hc : c ∈ blockConcat g b) : ∃ x ∈ b, c ∈ g x := by
  induction b with
  | nil => exact absurd hc (by simp [blockConcat])
  | cons x xs ih =>
    rcases List.mem_append.mp hc with h | h
    · exact ⟨x, List.mem_cons_self _ _, h⟩
    · obtain ⟨y, hy1, hy2⟩ := ih h
      exact ⟨y, List.mem_cons_of_mem _ hy1, hy2⟩

theorem blockConcat_congr (g g' : Char → List Char) (b : List Char)
    (h : ∀ x ∈ b, g x = g' x) : blockConcat g b = blockConcat g' b := by
  induction b with
  | nil => rfl
  | cons x xs ih =>
    show g x ++ blockConcat g xs = g' x ++ blockConcat g' xs
    rw [h x (List.mem_cons_self _ _), ih (fun y hy => h y (List.mem_cons_of_mem _ hy))]

theorem blockConcat_singleton (b : List Char) :
    blockConcat (fun x => [x]) b = b := by
  induction b with
  | nil => rfl
  | cons x xs ih => show x :: blockConcat (fun x => [x]) xs = x :: xs; rw [ih]

theorem proper_suffix_of_cons (s : List Char) (x : Char) (xs : List Char)
    (hs : s <:+ x :: xs) (hne : s ≠ x :: xs) : s <:+ xs := by
  obtain ⟨t, ht⟩ := hs
  cases t with
  | nil => simp only [List.nil_append] at ht; exact absurd ht hne
  | cons y ts =>
    injection ht with h1 h2
    exact ⟨ts, h2⟩

theorem isPrefixOf_append_self (u v : List Char) : u.isPrefixOf (u ++ v) = true :=
  List.isPrefixOf_iff_prefix.mpr (List.prefix_append u v)

theorem isPrefixOf_self (u : List Char) : u.isPrefixOf u = true :=
  List.isPrefixOf_iff_prefix.mpr List.prefix_rfl

/-- A literal `str.replace` over a concatenation of per-character blocks, when
    the pattern starts with `&`, every block keeps `&` out of its tail, and each
    block either is the pattern or can never begin a match: the replacement acts
    blockwise. -/
theorem replaceTok_blockConcat (ptail repl : List Char) (g : Char → List Char)
    (hblk : ∀ x, g x = '&' :: ptail ∨
      (('&' :: ptail).isPrefixOf (g x) = false ∧ ('&' :: ptail).take (g x).length ≠ g x))
    (htail : ∀ x, '&' ∉ (g x).drop 1)
    (hne : ∀ x, g x ≠ []) (b : List Char) :
    replaceTok ('&' :: ptail) repl (blockConcat g b) =
      blockConcat (fun x => if g x = '&' :: ptail then repl else g x) b := by
  induction b with
  | nil => rfl
  | cons x xs ih =>
    show replaceTok ('&' :: ptail) repl (g x ++ blockConcat g xs) =
      (if g x = '&' :: ptail then repl else g x) ++
        blockConcat (fun x => if g x = '&' :: ptail then repl else g x) xs
    rcases hblk x with hm | ⟨h1, h2⟩
    · rw [hm, if_pos rfl]
      unfold replaceTok
      rw [show ('&' :: ptail) ++ blockConcat g xs = '&' :: (ptail ++ blockConcat g xs)
          from rfl]
      rw [subScan_cons_some _ (consumes_tryTokRepl ('&' :: ptail) repl (by simp)) '&'
        (ptail ++ blockConcat g xs) repl (blockConcat g xs) (by
          simp only [tryTokRepl]
          rw [if_pos (by
            rw [show '&' :: (ptail ++ blockConcat g xs) = ('&' :: ptail) ++ blockConcat g xs
              from rfl]
            exact isPrefixOf_append_self _ _)]
          rw [show ('&' :: (ptail ++ blockConcat g xs)).drop ('&' :: ptail).length =
            blockConcat g xs from by
              rw [show '&' :: (ptail ++ blockConcat g xs) = ('&' :: ptail) ++ blockConcat g xs
                from rfl]
              exact List.drop_left _ _])]
      unfold replaceTok at ih
      rw [ih]
    · have hgne : ¬ g x = '&' :: ptail := by
        intro he
        rw [he, isPrefixOf_self] at h1
        exact absurd h1 (by decide)
      unfold replaceTok
      rw [subScan_append_no_match _ (g x) _ (fun c cs hs => by
        have hpf : ('&' :: ptail).isPrefixOf ((c :: cs) ++ blockConcat g xs) = false := by
          by_cases hfull : c :: cs = g x
          · rw [hfull]
            exact isPrefixOf_append_false_of _ _ _ h1 h2
          · have hs' : c :: cs <:+ (g x).drop 1 := by
              cases hgx : g x with
              | nil => exact absurd hgx (hne x)
              | cons y ys =>
                rw [hgx] at hs hfull
                exact proper_suffix_of_cons _ y ys hs hfull
            exact suffix_no_prefix_of_not_mem '&' ptail ((g x).drop 1)
              (blockConcat g xs) (htail x) (c :: cs) hs' (by simp)
        simp only [tryTokRepl, hpf]
        rfl)]
      rw [if_neg hgne]
      unfold replaceTok at ih
      rw [ih]

/-- Unescaping recovers every escaped string character for character. -/
theorem unescape_escape (b : List Char) : unescape_html (escape_html b) = b := by
  unfold unescape_html
  rw [escape_html_blockConcat]
  rw [show lc "&lt;" = '&' :: lc "lt;" from rfl]
  rw [replaceTok_blockConcat (lc "lt;") (lc "<") escPerChar
    (fun x => by
      by_cases e1 : x = '&'
      · subst e1; right; constructor <;> decide
      · by_cases e2 : x = '<'
        · subst e2; left; decide
        · by_cases e3 : x = '>'
          · subst e3; right; constructor <;> decide
          · right
            rw [show escPerChar x = [x] from by
              simp only [escPerChar, if_neg e1, if_neg e2, if_neg e3]]
            constructor
            · exact isPrefixOf_head_mismatch '&' (lc "lt;") x [] (fun he => e1 he.symm)
            · intro hc
              injection hc with hc1
              exact e1 hc1.symm)
    (fun x => by
      by_cases e1 : x = '&'
      · subst e1; decide
      · by_cases e2 : x = '<'
        · subst e2; decide
        · by_cases e3 : x = '>'
          · subst e3; decide
          · rw [show escPerChar x = [x] from by
              simp only [escPerChar, if_neg e1, if_neg e2, if_neg e3]]
            simp)
    (fun x => by
      by_cases e1 : x = '&'
      · subst e1; decide
      · by_cases e2 : x = '<'
        · subst e2; decide
        · by_cases e3 : x = '>'
          · subst e3; decide
          · rw [show escPerChar x = [x] from by
              simp only [escPerChar, if_neg e1, if_neg e2, if_neg e3]]
            simp)]
  rw [blockConcat_congr _ escPerChar2 _ (fun x _ => by
    by_cases e1 : x = '&'
    · subst e1; decide
    · by_cases e2 : x = '<'
      · subst e2; decide
      · by_cases e3 : x = '>'
        · subst e3; decide
        · rw [show escPerChar x = [x] from by
            simp only [escPerChar, if_neg e1, if_neg e2, if_neg e3]]
          rw [show escPerChar2 x = [x] from by
            simp only [escPerChar2, if_neg e1, if_neg e3]]
          rw [if_neg (fun hc => by injection hc with hc1; exact e1 hc1)])]
  rw [show lc "&gt;" = '&' :: lc "gt;" from rfl]
  rw [replaceTok_blockConcat (lc "gt;") (lc ">") escPerChar2
    (fun x => by
      by_cases e1 : x = '&'
      · subst e1; right; constructor <;> decide
      · by_cases e3 : x = '>'
        · subst e3; left; decide
        · right
          rw [show escPerChar2 x = [x] from by
            simp only [escPerChar2, if_neg e1, if_neg e3]]
          constructor
          · exact isPrefixOf_head_mismatch '&' (lc "gt;") x [] (fun he => e1 he.symm)
          · intro hc
            injection hc with hc1
            exact e1 hc1.symm)
    (fun x => by
      by_cases e1 : x = '&'
      · subst e1; decide
      · by_cases e3 : x = '>'
        · subst e3; decide
        · rw [show escPerChar2 x = [x] from by
            simp only [escPerChar2, if_neg e1, if_neg e3]]
          simp)
    (fun x => by
      by_cases e1 : x = '&'
      · subst e1; decide
      · by_cases e3 : x = '>'
        · subst e3; decide
        · rw [show escPerChar2 x = [x] from by
            simp only [escPerChar2, if_neg e1, if_neg e3]]
          simp)]
  rw [blockConcat_congr _ escPerChar3 _ (fun x _ => by
    by_cases e1 : x = '&'
    · subst e1; decide
    · by_cases e3 : x = '>'
      · subst e3; decide
      · rw [show escPerChar2 x = [x] from by
          simp only [escPerChar2, if_neg e1, if_neg e3]]
        rw [show escPerChar3 x = [x] from by
          simp only [escPerChar3, if_neg e1]]
        rw [if_neg (fun hc => by injection hc with hc1; exact e1 hc1)])]
  rw [show lc "&amp;" = '&' :: lc "amp;" from rfl]
  rw [replaceTok_blockConcat (lc "amp;") (lc "&") escPerChar3
    (fun x => by
      by_cases e1 : x = '&'
      · subst e1; left; decide
      · right
        rw [show escPerChar3 x = [x] from by simp only [escPerChar3, if_neg e1]]
        constructor
        · exact isPrefixOf_head_mismatch '&' (lc "amp;") x [] (fun he => e1 he.symm)
        · intro hc
          injection hc with hc1
          exact e1 hc1.symm)
    (fun x => by
      by_cases e1 : x = '&'
      · subst e1; decide
      · rw [show escPerChar3 x = [x] from by simp only [escPerChar3, if_neg e1]]
        simp)
    (fun x => by
      by_cases e1 : x = '&'
      · subst e1; decide
      · rw [show escPerChar3 x = [x] from by simp only [escPerChar3, if_neg e1]]
        simp)]
  rw [blockConcat_congr _ (fun x => [x]) _ (fun x _ => by
    by_cases e1 : x = '&'
    · subst e1; decide
    · rw [show escPerChar3 x = [x] from by simp only [escPerChar3, if_neg e1]]
      rw [if_neg (fun hc => by injection hc with hc1; exact e1 hc1)])]
  exact blockConcat_singleton b

theorem not_mem_escape_html (b : List Char) (c : Char)
    (hball : ∀ x ∈ b, c ∉ escPerChar x) : c ∉ escape_html b := by
  rw [escape_html_blockConcat]
  intro hm
  obtain ⟨x, hx, hcx⟩ := mem_blockConcat _ _ _ hm
  exact hball x hx hcx

theorem not_mem_escPerChar (c x : Char) (hc1 : ¬ c = x) (h1 : c ∉ lc "&amp;")
    (h2 : c ∉ lc "&lt;") (h3 : c ∉ lc "&gt;") : c ∉ escPerChar x := by
  by_cases e1 : x = '&'
  · subst e1; rw [show escPerChar '&' = lc "&amp;" from rfl]; exact h1
  · by_cases e2 : x = '<'
    · subst e2; rw [show escPerChar '<' = lc "&lt;" from rfl]; exact h2
    · by_cases e3 : x = '>'
      · subst e3; rw [show escPerChar '>' = lc "&gt;" from rfl]; exact h3
      · rw [show escPerChar x = [x] from by
          simp only [escPerChar, if_neg e1, if_neg e2, if_neg e3]]
        intro hm
        rw [List.mem_singleton] at hm
        exact hc1 hm

theorem not_mem_escape_of_safe (b : List Char) (hb : b.all c2SafeChar = true)
    (c : Char) (hc : c2SafeChar c = false) (h1 : c ∉ lc "&amp;")
    (h2 : c ∉ lc "&lt;") (h3 : c ∉ lc "&gt;") : c ∉ escape_html b :=
  not_mem_escape_html b c (fun x hx =>
    not_mem_escPerChar c x
      (fun he => by
        have ht := List.all_eq_true.mp hb x hx
        rw [← he, hc] at ht
        exact absurd ht (by decide))
      h1 h2 h3)

theorem lt_not_mem_escape (b : List Char) : '<' ∉ escape_html b :=
  not_mem_escape_html b '<' (fun x _ => by
    by_cases e1 : x = '&'
    · subst e1; rw [show escPerChar '&' = lc "&amp;" from rfl]; decide
    · by_cases e2 : x = '<'
      · subst e2; rw [show escPerChar '<' = lc "&lt;" from rfl]; decide
      · by_cases e3 : x = '>'
        · subst e3; rw [show escPerChar '>' = lc "&gt;" from rfl]; decide
        · rw [show escPerChar x = [x] from by
            simp only [escPerChar, if_neg e1, if_neg e2, if_neg e3]]
          intro hm
          rw [List.mem_singleton] at hm
          exact e2 hm.symm)

theorem subLines_headerLine_id_of_no_hash (k : Nat) (s : List Char) (hk : k ≠ 0)
    (h : '#' ∉ s) : subLines (headerLine k) s = s :=
  subLines_congr_id _ _ (fun line hl =>
    headerLine_id k line hk (fun hhead =>
      h (mem_of_mem_splitOnChar '\n' s line hl '#' (mem_of_head?_eq '#' line hhead))))

theorem splitOnTok_append_tok (tok u : List Char) (hne : tok ≠ [])
    (hu : ∀ s, s <:+ u → s ≠ [] → tok.isPrefixOf (s ++ tok) = false) :
    splitOnTok tok (u ++ tok) = some (u, []) := by
  induction u with
  | nil =>
    cases tok with
    | nil => exact absurd rfl hne
    | cons c ct =>
      rw [List.nil_append]
      simp only [splitOnTok]
      rw [if_pos (isPrefixOf_self (c :: ct)), List.drop_length]
  | cons y ys ih =>
    rw [List.cons_append]
    simp only [splitOnTok]
    have hno : tok.isPrefixOf (y :: (ys ++ tok)) = false := by
      have := hu (y :: ys) List.suffix_rfl (by simp)
      rw [List.cons_append] at this
      exact this
    rw [hno, if_neg (by decide),
      ih (fun s hs hsne => hu s (hs.trans (List.suffix_cons y ys)) hsne)]

/-- C2 (amended): a fenced code block whose single-line body ranges over plain
    text and the three escapable characters is rendered as one
    `<pre><code class="language-text">` element containing exactly
    `escape_html b`, and unescaping recovers `b` character for character. -/
theorem c2_fence_roundtrip (b : List Char) (hb : b.all c2SafeChar = true) :
    GenerateKindle.simple_markdown_to_html (lc "```\n" ++ b ++ lc "\n```") =
      lc "<pre><code class=\"language-text\">" ++ escape_html b ++ lc "</code></pre>" ∧
    unescape_html (escape_html b) = b := by
  refine ⟨?_, unescape_escape b⟩
  have hbs : ∀ c : Char, c2SafeChar c = false → c ∉ b :=
    fun c hc => not_mem_of_all_safe _ b hb c hc
  have hhash : '#' ∉ lc "```\n" ++ b ++ lc "\n```" :=
    not_mem_append _ _ _ (not_mem_append _ _ _ (by decide) (hbs '#' (by decide)))
      (by decide)
  have hH1 := subLines_headerLine_id_of_no_hash 1 _ (by decide) hhash
  have hH2 := subLines_headerLine_id_of_no_hash 2 _ (by decide) hhash
  have hH3 := subLines_headerLine_id_of_no_hash 3 _ (by decide) hhash
  have hH4 := subLines_headerLine_id_of_no_hash 4 _ (by decide) hhash
  have hH5 := subLines_headerLine_id_of_no_hash 5 _ (by decide) hhash
  have hnlb : '\n' ∉ b := hbs '\n' (by decide)
  have hsplitB : splitOnTok (lc "\n```") (b ++ lc "\n```") = some (b, []) :=
    splitOnTok_append_tok _ b (by decide)
      (suffix_no_prefix_of_not_mem '\n' (lc "```") b _ hnlb)
  have hfire : subScan (tryFence fenceRepl) (lc "```\n" ++ b ++ lc "\n```") =
      lc "<pre><code class=\"language-text\">" ++ escape_html b ++ lc "</code></pre>" := by
    have htf : tryFence fenceRepl ('`' :: ('`' :: '`' :: '\n' :: (b ++ lc "\n```"))) =
        some (fenceRepl [] b, []) := by
      show (match splitOnTok (lc "\n```") (b ++ lc "\n```") with
        | some (content, rest) => some (fenceRepl [] content, rest)
        | none => none) = some (fenceRepl [] b, [])
      rw [hsplitB]
    rw [show lc "```\n" ++ b ++ lc "\n```" =
      '`' :: ('`' :: '`' :: '\n' :: (b ++ lc "\n```")) from rfl]
    rw [subScan_cons_some _ (consumes_tryFence fenceRepl) '`'
      ('`' :: '`' :: '\n' :: (b ++ lc "\n```")) (fenceRepl [] b) [] htf,
      subScan_nil, List.append_nil]
    show (lc "<pre><code class=\"language-" ++ lc "text") ++ lc "\">" ++ escape_html b ++
      lc "</code></pre>" = _
    rw [show (lc "<pre><code class=\"language-" ++ lc "text") ++ lc "\">" =
      lc "<pre><code class=\"language-text\">" from by decide]
  have hnlS : '\n' ∉ lc "<pre><code class=\"language-text\">" ++ escape_html b ++
      lc "</code></pre>" :=
    not_mem_append _ _ _ (not_mem_append _ _ _ (by decide)
      (not_mem_escape_of_safe b hb '\n' (by decide) (by decide) (by decide) (by decide)))
      (by decide)
  have hbtS : '`' ∉ lc "<pre><code class=\"language-text\">" ++ escape_html b ++
      lc "</code></pre>" :=
    not_mem_append _ _ _ (not_mem_append _ _ _ (by decide)
      (not_mem_escape_of_safe b hb '`' (by decide) (by decide) (by decide) (by decide)))
      (by decide)
  have hstS : '*' ∉ lc "<pre><code class=\"language-text\">" ++ escape_html b ++
      lc "</code></pre>" :=
    not_mem_append _ _ _ (not_mem_append _ _ _ (by decide)
      (not_mem_escape_of_safe b hb '*' (by decide) (by decide) (by decide) (by decide)))
      (by decide)
  have hlbS : '[' ∉ lc "<pre><code class=\"language-text\">" ++ escape_html b ++
      lc "</code></pre>" :=
    not_mem_append _ _ _ (not_mem_append _ _ _ (by decide)
      (not_mem_escape_of_safe b hb '[' (by decide) (by decide) (by decide) (by decide)))
      (by decide)
  have hpipeS : '|' ∉ lc "<pre><code class=\"language-text\">" ++ escape_html b ++
      lc "</code></pre>" :=
    not_mem_append _ _ _ (not_mem_append _ _ _ (by decide)
      (not_mem_escape_of_safe b hb '|' (by decide) (by decide) (by decide) (by decide)))
      (by decide)
  have hheadS : (lc "<pre><code class=\"language-text\">" ++ escape_html b ++
      lc "</code></pre>").head? = some '<' := rfl
  have hlastS : (lc "<pre><code class=\"language-text\">" ++ escape_html b ++
      lc "</code></pre>").getLast? = some '>' := by
    rw [getLast?_append_right _ _ (show (lc "</code></pre>" : List Char) ≠ [] from by decide)]
    decide
  have hliS : containsTok (lc "<li>") (lc "<pre><code class=\"language-text\">" ++
      escape_html b ++ lc "</code></pre>") = false := by
    simp only [List.append_assoc]
    apply containsTok_append_false
    · exact no_tok_at_boundary (lc "<li>") (lc "<pre><code class=\"language-text\">") _
        (by decide)
    · apply containsTok_append_false
      · exact suffix_no_prefix_of_not_mem '<' (lc "li>") (escape_html b) _
          (lt_not_mem_escape b)
      · decide
  unfold GenerateKindle.simple_markdown_to_html
  rw [hH1, hH2, hH3, hH4, hH5, hfire]
  exact postFencePasses_id _ hnlS hbtS hstS hlbS hheadS hlastS hliS hpipeS

/-- C2 counterexample: for the body `*hi*` the element's content is not
    `escape_html` of the body — the italic pass rewrites it to `<em>hi</em>`
    inside the emitted code element. -/
theorem c2_counterexample :
    ¬ (GenerateKindle.simple_markdown_to_html (lc "```\n*hi*\n```") =
      lc "<pre><code class=\"language-text\">" ++ escape_html (lc "*hi*") ++
        lc "</code></pre>") := by
  decide

theorem c2_witness :
    (lc "a <b> & c").all c2SafeChar = true ∧
    (GenerateKindle.simple_markdown_to_html (lc "```\n" ++ lc "a <b> & c" ++ lc "\n```") =
      lc "<pre><code class=\"language-text\">" ++ escape_html (lc "a <b> & c") ++
        lc "</code></pre>" ∧
     unescape_html (escape_html (lc "a <b> & c")) = lc "a <b> & c") :=
  ⟨by decide, c2_fence_roundtrip (lc "a <b> & c") (by decide)⟩

/- The numbered-list trace. -/

theorem splitOnTok_eq_none (tok l : List Char) (h : containsTok tok l = false) :
    splitOnTok tok l = none := by
  induction l with
  | nil => rfl
  | cons c cs ih =>
    have hh : (tok.isPrefixOf (c :: cs) || containsTok tok cs) = false := h
    have h1 := (Bool.or_eq_false_iff.mp hh).1
    have h2 := (Bool.or_eq_false_iff.mp hh).2
    simp only [splitOnTok, h1]
    rw [if_neg (by decide), ih h2]

theorem joinNl_cons_head (l : List Char) (ls : List (List Char)) (h : l ≠ []) :
    (joinNl (l :: ls)).head? = l.head? := by
  cases ls with
  | nil => rfl
  | cons m ms =>
    rw [joinNl_cons _ _ (by simp)]
    cases l with
    | nil => exact absurd rfl h
    | cons c cs => rfl

theorem single_isPrefixOf_false_of_head (a : Char) (l : List Char) (c : Char)
    (h : l.head? = some c) (hne : ¬ a = c) : ([a]).isPrefixOf l = false := by
  cases l with
  | nil => exact absurd h (by simp)
  | cons d ds =>
    rw [List.head?_cons] at h
    injection h with h'
    subst h'
    exact isPrefixOf_head_mismatch a [] d ds hne

theorem containsTok_nn_joinNl (lines : List (List Char))
    (h : ∀ l ∈ lines, l ≠ [] ∧ '\n' ∉ l) :
    containsTok (lc "\n\n") (joinNl lines) = false := by
  induction lines with
  | nil => rfl
  | cons l rest ih =>
    cases rest with
    | nil =>
      show containsTok (lc "\n\n") l = false
      exact containsTok_false_of_head_not_mem '\n' (lc "\n") l
        (h l (List.mem_cons_self _ _)).2
    | cons m ms =>
      rw [joinNl_cons _ _ (by simp)]
      apply containsTok_append_false
      · exact suffix_no_prefix_of_not_mem '\n' (lc "\n") l _
          (h l (List.mem_cons_self _ _)).2
      · show ((lc "\n\n").isPrefixOf ('\n' :: joinNl (m :: ms)) ||
          containsTok (lc "\n\n") (joinNl (m :: ms))) = false
        rw [ih (fun x hx => h x (List.mem_cons_of_mem _ hx))]
        rw [show (lc "\n\n") = '\n' :: ['\n'] from rfl, cons_isPrefixOf_cons]
        have hm := h m (List.mem_cons_of_mem _ (List.mem_cons_self _ _))
        have hmh : ∃ c, m.head? = some c ∧ ¬ '\n' = c := by
          cases m with
          | nil => exact absurd rfl hm.1
          | cons c cs =>
            exact ⟨c, rfl, fun he => hm.2 (he ▸ List.mem_cons_self _ _)⟩
        obtain ⟨c, hc1, hc2⟩ := hmh
        rw [single_isPrefixOf_false_of_head '\n' (joinNl (m :: ms)) c
          (by rw [joinNl_cons_head m ms hm.1]; exact hc1) hc2]
        simp

theorem mem_joinNl (lines : List (List Char)) (c : Char)
    (hc : c ∈ joinNl lines) : c = '\n' ∨ ∃ l ∈ lines, c ∈ l := by
  induction lines with
  | nil => exact absurd hc (by simp [joinNl])
  | cons l rest ih =>
    cases rest with
    | nil => exact Or.inr ⟨l, List.mem_cons_self _ _, hc⟩
    | cons m ms =>
      rw [joinNl_cons _ _ (by simp)] at hc
      rcases List.mem_append.mp hc with h1 | h1
      · exact Or.inr ⟨l, List.mem_cons_self _ _, h1⟩
      · rcases List.mem_cons.mp h1 with h2 | h2
        · exact Or.inl h2
        · rcases ih h2 with h3 | ⟨x, hx1, hx2⟩
          · exact Or.inl h3
          · exact Or.inr ⟨x, List.mem_cons_of_mem _ hx1, hx2⟩

theorem hasNumDotWs_eq_false (l : List Char) (h : '.' ∉ l) :
    hasNumDotWs l = false := by
  induction l with
  | nil => rfl
  | cons a tail ih =>
    match tail, ih with
    | [], _ => rfl
    | [b], _ => rfl
    | b :: c :: rest, ih =>
      show ((a.isDigit && b == '.' && isWs c) || hasNumDotWs (b :: c :: rest)) = false
      have hb : ¬ b = '.' := fun he =>
        h (he ▸ List.mem_cons_of_mem _ (List.mem_cons_self _ _))
      rw [ih (fun hm => h (List.mem_cons_of_mem _ hm))]
      have hbeq : (b == '.') = false := by
        rw [Bool.eq_false_iff]
        exact fun hbe => hb (beq_iff_eq.mp hbe)
      rw [show (a.isDigit && b == '.' && isWs c) = (a.isDigit && b == '.' && isWs c)
        from rfl, hbeq]
      simp

theorem takeWhile_digits (n : List Char) (hn : n.all Char.isDigit = true)
    (r : List Char) : (n ++ '.' :: r).takeWhile Char.isDigit = n := by
  induction n with
  | nil =>
    rw [List.nil_append, List.takeWhile_cons_of_neg (by simp)]
  | cons d ds ih =>
    rw [List.cons_append, List.takeWhile_cons_of_pos
      (by simp [List.all_eq_true.mp hn d (List.mem_cons_self _ _)])]
    rw [ih (List.all_eq_true.mp (by
      rw [List.all_cons] at hn
      exact (Bool.and_eq_true _ _).mp hn |>.2) |> List.all_eq_true.mpr)]

theorem splitOnTok_first (tok u v : List Char) (hne : tok ≠ [])
    (hu : ∀ s, s <:+ u → s ≠ [] → tok.isPrefixOf (s ++ (tok ++ v)) = false) :
    splitOnTok tok (u ++ (tok ++ v)) = some (u, v) := by
  induction u with
  | nil =>
    rw [List.nil_append]
    cases tok with
    | nil => exact absurd rfl hne
    | cons c ct =>
      rw [List.cons_append]
      simp only [splitOnTok]
      rw [if_pos (by
        rw [← List.cons_append]
        exact isPrefixOf_append_self (c :: ct) v)]
      rw [show (c :: (ct ++ v)).drop (c :: ct).length = v from by
        rw [← List.cons_append]
        exact List.drop_left _ _]
  | cons y ys ih =>
    rw [List.cons_append]
    simp only [splitOnTok]
    have hno : tok.isPrefixOf (y :: (ys ++ (tok ++ v))) = false := by
      have := hu (y :: ys) List.suffix_rfl (by simp)
      rw [List.cons_append] at this
      exact this
    rw [hno, if_neg (by decide),
      ih (fun s hs hsne => hu s (hs.trans (List.suffix_cons y ys)) hsne)]

theorem tryLiItem_alone (t : List Char) (ht : '<' ∉ t) :
    tryLiItem (lc "<li>" ++ t ++ lc "</li>") =
      some (lc "<li>" ++ t ++ lc "</li>", []) := by
  simp only [tryLiItem]
  rw [if_pos (by
    rw [List.append_assoc]
    exact isPrefixOf_append_self _ _)]
  rw [show ((lc "<li>" ++ t ++ lc "</li>").drop 4) = t ++ lc "</li>" from by
    rw [List.append_assoc]; rfl]
  rw [splitOnTok_append_tok (lc "</li>") t (by decide)
    (suffix_no_prefix_of_not_mem '<' (lc "/li>") t (lc "</li>") ht)]

theorem tryLiItem_tail (t tail : List Char) (ht : '<' ∉ t) :
    tryLiItem (lc "<li>" ++ t ++ lc "</li>" ++ tail) =
      some (lc "<li>" ++ t ++ lc "</li>", tail) := by
  simp only [tryLiItem]
  rw [if_pos (by
    rw [List.append_assoc, List.append_assoc]
    exact isPrefixOf_append_self _ _)]
  rw [show ((lc "<li>" ++ t ++ lc "</li>" ++ tail).drop 4) = t ++ (lc "</li>" ++ tail)
    from by rw [List.append_assoc, List.append_assoc]; rfl]
  rw [splitOnTok_first (lc "</li>") t tail (by decide)
    (suffix_no_prefix_of_not_mem '<' (lc "/li>") t (lc "</li>" ++ tail) ht)]

theorem liStarF_nil2 (fuel : Nat) : liStarF fuel [] = ([], []) := by
  cases fuel with
  | zero => rfl
  | succ f => rfl

theorem liStarF_cons_nl (fuel : Nat) (c : Char) (xs : List Char) (hc : isWs c = false)
    (item rest : List Char) (hitem : tryLiItem (c :: xs) = some (item, rest))
    (hlt : rest.length < xs.length + 2) :
    liStarF (fuel + 1) ('\n' :: c :: xs) =
      (('\n' :: item) ++ (liStarF fuel rest).1, (liStarF fuel rest).2) := by
  simp only [liStarF]
  rw [show ('\n' :: c :: xs).takeWhile isWs = ['\n'] from by
    rw [List.takeWhile_cons_of_pos (by decide), List.takeWhile_cons_of_neg (by simp [hc])]]
  rw [show (['\n'] : List Char).length = 1 from rfl]
  rw [show ('\n' :: c :: xs).drop 1 = c :: xs from rfl]
  rw [hitem]
  show (if rest.length < ('\n' :: c :: xs).length
      then (['\n'] ++ item ++ (liStarF fuel rest).1, (liStarF fuel rest).2)
      else (['\n'] ++ item, rest)) =
    (('\n' :: item) ++ (liStarF fuel rest).1, (liStarF fuel rest).2)
  rw [if_pos (by simp only [List.length_cons]; omega)]
  rfl

theorem liStarF_items : ∀ (texts : List (List Char)), (∀ t ∈ texts, '<' ∉ t) →
    texts ≠ [] → ∀ fuel,
    (joinNl (texts.map fun t => lc "<li>" ++ t ++ lc "</li>")).length + 1 ≤ fuel →
    liStarF fuel ('\n' :: joinNl (texts.map fun t => lc "<li>" ++ t ++ lc "</li>")) =
      ('\n' :: joinNl (texts.map fun t => lc "<li>" ++ t ++ lc "</li>"), []) := by
  intro texts
  induction texts with
  | nil => intro _ hne; exact absurd rfl hne
  | cons t ts ih =>
    intro hsafe _ fuel hfuel
    cases fuel with
    | zero => simp at hfuel
    | succ f =>
      cases ts with
      | nil =>
        rw [show joinNl (([t] : List (List Char)).map fun t =>
            lc "<li>" ++ t ++ lc "</li>") =
          '<' :: ('l' :: 'i' :: '>' :: (t ++ lc "</li>")) from rfl]
        rw [liStarF_cons_nl f '<' ('l' :: 'i' :: '>' :: (t ++ lc "</li>")) (by decide)
          (lc "<li>" ++ t ++ lc "</li>") []
          (tryLiItem_alone t (hsafe t (List.mem_cons_self _ _)))
          (by simp)]
        rw [liStarF_nil2 f]
        simp
        rfl
      | cons t2 ts2 =>
        have hY : joinNl ((t :: t2 :: ts2).map fun t => lc "<li>" ++ t ++ lc "</li>") =
            '<' :: ('l' :: 'i' :: '>' :: ((t ++ lc "</li>") ++
              ('\n' :: joinNl ((t2 :: ts2).map fun t =>
                lc "<li>" ++ t ++ lc "</li>")))) := rfl
        rw [hY]
        rw [liStarF_cons_nl f '<'
          ('l' :: 'i' :: '>' :: ((t ++ lc "</li>") ++
            ('\n' :: joinNl ((t2 :: ts2).map fun t => lc "<li>" ++ t ++ lc "</li>"))))
          (by decide) (lc "<li>" ++ t ++ lc "</li>")
          ('\n' :: joinNl ((t2 :: ts2).map fun t => lc "<li>" ++ t ++ lc "</li>"))
          (tryLiItem_tail t _ (hsafe t (List.mem_cons_self _ _)))
          (by simp only [List.length_cons, List.length_append]; omega)]
        rw [ih (fun x hx => hsafe x (List.mem_cons_of_mem _ hx)) (by simp) f
          (by
            rw [hY] at hfuel
            simp only [List.length_cons, List.length_append] at hfuel ⊢
            omega)]
        rfl

theorem tryWrap_items (t : List Char) (ts : List (List Char))
    (hsafe : ∀ x ∈ t :: ts, '<' ∉ x) :
    tryWrap (joinNl ((t :: ts).map fun x => lc "<li>" ++ x ++ lc "</li>")) =
      some (wrap_list_items
        (joinNl ((t :: ts).map fun x => lc "<li>" ++ x ++ lc "</li>")), []) := by
  cases ts with
  | nil =>
    show tryWrap (lc "<li>" ++ t ++ lc "</li>") =
      some (wrap_list_items (lc "<li>" ++ t ++ lc "</li>"), [])
    simp only [tryWrap]
    rw [tryLiItem_alone t (hsafe t (List.mem_cons_self _ _))]
    show some (wrap_list_items ((lc "<li>" ++ t ++ lc "</li>") ++
      (liStar ([] : List Char)).1), (liStar ([] : List Char)).2) = _
    rw [show liStar ([] : List Char) = ([], []) from rfl]
    show some (wrap_list_items ((lc "<li>" ++ t ++ lc "</li>") ++ []), []) = _
    rw [List.append_nil]
  | cons t2 ts2 =>
    have hY : joinNl ((t :: t2 :: ts2).map fun x => lc "<li>" ++ x ++ lc "</li>") =
        lc "<li>" ++ t ++ lc "</li>" ++
          ('\n' :: joinNl ((t2 :: ts2).map fun x => lc "<li>" ++ x ++ lc "</li>")) := rfl
    rw [hY]
    simp only [tryWrap]
    rw [tryLiItem_tail t
      ('\n' :: joinNl ((t2 :: ts2).map fun x => lc "<li>" ++ x ++ lc "</li>"))
      (hsafe t (List.mem_cons_self _ _))]
    have hls : liStar ('\n' :: joinNl ((t2 :: ts2).map fun x =>
        lc "<li>" ++ x ++ lc "</li>")) =
        ('\n' :: joinNl ((t2 :: ts2).map fun x => lc "<li>" ++ x ++ lc "</li>"), []) := by
      unfold liStar
      exact liStarF_items (t2 :: ts2)
        (fun x hx => hsafe x (List.mem_cons_of_mem _ hx)) (by simp) _
        (by simp [List.length_cons])
    show some (wrap_list_items ((lc "<li>" ++ t ++ lc "</li>") ++
        (liStar ('\n' :: joinNl ((t2 :: ts2).map fun x =>
          lc "<li>" ++ x ++ lc "</li>"))).1),
      (liStar ('\n' :: joinNl ((t2 :: ts2).map fun x =>
        lc "<li>" ++ x ++ lc "</li>"))).2) = _
    rw [hls]

theorem subScan_wrap_items (t : List Char) (ts : List (List Char))
    (hsafe : ∀ x ∈ t :: ts, '<' ∉ x) :
    subScan tryWrap (joinNl ((t :: ts).map fun x => lc "<li>" ++ x ++ lc "</li>")) =
      wrap_list_items (joinNl ((t :: ts).map fun x => lc "<li>" ++ x ++ lc "</li>")) := by
  have h := tryWrap_items t ts hsafe
  cases ts with
  | nil =>
    rw [show joinNl (([t] : List (List Char)).map fun x =>
        lc "<li>" ++ x ++ lc "</li>") =
      '<' :: ('l' :: 'i' :: '>' :: (t ++ lc "</li>")) from rfl] at h ⊢
    rw [subScan_cons_some _ consumes_tryWrap '<' _ _ [] h, subScan_nil, List.append_nil]
  | cons t2 ts2 =>
    rw [show joinNl ((t :: t2 :: ts2).map fun x => lc "<li>" ++ x ++ lc "</li>") =
      '<' :: ('l' :: 'i' :: '>' :: ((t ++ lc "</li>") ++
        ('\n' :: joinNl ((t2 :: ts2).map fun x =>
          lc "<li>" ++ x ++ lc "</li>")))) from rfl] at h ⊢
    rw [subScan_cons_some _ consumes_tryWrap '<' _ _ [] h, subScan_nil, List.append_nil]

theorem wrap_ul (content : List Char) (h : '.' ∉ content) :
    wrap_list_items content = lc "<ul>" ++ content ++ lc "</ul>" := by
  unfold wrap_list_items
  rw [hasNumDotWs_eq_false content h, if_neg (by decide)]

theorem drop_append_plus (u v : List Char) (k : Nat) :
    (u ++ v).drop (u.length + k) = v.drop k := by
  induction u with
  | nil => simp
  | cons c cs ih =>
    rw [List.cons_append, List.length_cons,
      show cs.length + 1 + k = (cs.length + k) + 1 from by omega,
      List.drop_succ_cons, ih]

theorem numberedLine_fires (n t : List Char) (hn1 : n ≠ [])
    (hn2 : n.all Char.isDigit = true) :
    numberedLine (n ++ lc ". " ++ t) = lc "<li>" ++ t ++ lc "</li>" := by
  have hassoc : n ++ lc ". " ++ t = n ++ ('.' :: ' ' :: t) := by
    rw [List.append_assoc]
    rfl
  rw [hassoc]
  simp only [numberedLine]
  rw [takeWhile_digits n hn2 (' ' :: t)]
  have hne : n.isEmpty = false := by
    cases n with
    | nil => exact absurd rfl hn1
    | cons _ _ => rfl
  rw [hne, if_neg (by decide)]
  rw [show (n ++ ('.' :: ' ' :: t)).drop n.length = '.' :: ' ' :: t from
    List.drop_left _ _]
  rw [if_pos (show (lc ". ").isPrefixOf ('.' :: ' ' :: t) = true from by
    rw [show lc ". " = '.' :: ' ' :: [] from rfl, cons_isPrefixOf_cons,
      cons_isPrefixOf_cons]
    simp [List.isPrefixOf])]
  rw [show (n ++ ('.' :: ' ' :: t)).drop (n.length + 2) = t from by
    rw [drop_append_plus n ('.' :: ' ' :: t) 2]
    rfl]

theorem c9Mid_ne_nil (x : List Char) (xs : List (List Char)) :
    c9Mid (x :: xs) ≠ [] := by
  cases xs <;> simp [c9Mid]

theorem joinNl_c9Mid (xs : List (List Char)) : ∀ x : List Char,
    joinNl (c9Mid (x :: xs)) =
      joinNl ((x :: xs).map fun t => lc "<li>" ++ t ++ lc "</li>") ++ lc "</ul>" := by
  induction xs with
  | nil => intro x; rfl
  | cons y ys ih =>
    intro x
    rw [show c9Mid (x :: y :: ys) =
      (lc "<li>" ++ x ++ lc "</li>") :: c9Mid (y :: ys) from rfl]
    rw [joinNl_cons _ _ (c9Mid_ne_nil y ys), ih y]
    rw [show joinNl ((x :: y :: ys).map fun t => lc "<li>" ++ t ++ lc "</li>") =
      (lc "<li>" ++ x ++ lc "</li>") ++
        '\n' :: joinNl ((y :: ys).map fun t => lc "<li>" ++ t ++ lc "</li>") from rfl]
    simp [List.append_assoc]

theorem c9AllLines_eq (t : List Char) (ts : List (List Char)) :
    lc "<ul>" ++ joinNl ((t :: ts).map fun x => lc "<li>" ++ x ++ lc "</li>") ++
      lc "</ul>" = joinNl (c9AllLines t ts) := by
  cases ts with
  | nil => rfl
  | cons t2 ts2 =>
    rw [show c9AllLines t (t2 :: ts2) =
      (lc "<ul>" ++ (lc "<li>" ++ t ++ lc "</li>")) :: c9Mid (t2 :: ts2) from rfl]
    rw [joinNl_cons _ _ (c9Mid_ne_nil t2 ts2), joinNl_c9Mid ts2 t2]
    rw [show joinNl ((t :: t2 :: ts2).map fun x => lc "<li>" ++ x ++ lc "</li>") =
      (lc "<li>" ++ t ++ lc "</li>") ++
        '\n' :: joinNl ((t2 :: ts2).map fun x => lc "<li>" ++ x ++ lc "</li>") from rfl]
    simp [List.append_assoc]

theorem c9Mid_facts (xs : List (List Char))
    (hsafe : ∀ x ∈ xs, '\n' ∉ x) : ∀ x : List Char, '\n' ∉ x →
    ∀ line ∈ c9Mid (x :: xs), line.head? = some '<' ∧ '\n' ∉ line := by
  induction xs with
  | nil =>
    intro x hx line hl
    rw [show c9Mid [x] = [lc "<li>" ++ x ++ lc "</li>" ++ lc "</ul>"] from rfl,
      List.mem_singleton] at hl
    subst hl
    exact ⟨rfl, not_mem_append _ _ _ (not_mem_append _ _ _
      (not_mem_append _ _ _ (by decide) hx) (by decide)) (by decide)⟩
  | cons y ys ih =>
    intro x hx line hl
    rw [show c9Mid (x :: y :: ys) =
      (lc "<li>" ++ x ++ lc "</li>") :: c9Mid (y :: ys) from rfl] at hl
    rcases List.mem_cons.mp hl with he | hrest
    · subst he
      exact ⟨rfl, not_mem_append _ _ _ (not_mem_append _ _ _ (by decide) hx)
        (by decide)⟩
    · exact ih (fun z hz => hsafe z (List.mem_cons_of_mem _ hz)) y
        (hsafe y (List.mem_cons_self _ _)) line hrest

theorem c9AllLines_facts (t : List Char) (ts : List (List Char))
    (ht : '\n' ∉ t) (hts : ∀ x ∈ ts, '\n' ∉ x) :
    ∀ line ∈ c9AllLines t ts, line.head? = some '<' ∧ '\n' ∉ line := by
  intro line hl
  cases ts with
  | nil =>
    rw [show c9AllLines t [] =
      [lc "<ul>" ++ (lc "<li>" ++ t ++ lc "</li>") ++ lc "</ul>"] from rfl,
      List.mem_singleton] at hl
    subst hl
    exact ⟨rfl, not_mem_append _ _ _ (not_mem_append _ _ _ (by decide)
      (not_mem_append _ _ _ (not_mem_append _ _ _ (by decide) ht) (by decide)))
      (by decide)⟩
  | cons t2 ts2 =>
    rw [show c9AllLines t (t2 :: ts2) =
      (lc "<ul>" ++ (lc "<li>" ++ t ++ lc "</li>")) :: c9Mid (t2 :: ts2) from rfl] at hl
    rcases List.mem_cons.mp hl with he | hrest
    · subst he
      exact ⟨rfl, not_mem_append _ _ _ (by decide)
        (not_mem_append _ _ _ (not_mem_append _ _ _ (by decide) ht) (by decide))⟩
    · exact c9Mid_facts ts2 (fun z hz => hts z (List.mem_cons_of_mem _ hz)) t2
        (hts t2 (List.mem_cons_self _ _)) line hrest

theorem c9AllLines_ne_nil (t : List Char) (ts : List (List Char)) :
    c9AllLines t ts ≠ [] := by
  cases ts <;> simp [c9AllLines]

/-- C9: a markdown numbered list (lines `N. text`, texts plain) is converted
    to `<li>` items wrapped in a single `<ul>` — the numbers are removed and
    no `<ol>` is produced, because `wrap_list_items` sees only the converted
    item content, which no longer contains the digit-period pattern. -/
theorem c9_numbered_list_ul (items : List (List Char × List Char))
    (hne : items ≠ [])
    (hnum : ∀ p ∈ items, p.1 ≠ [] ∧ p.1.all Char.isDigit = true)
    (htxt : ∀ p ∈ items, p.2.all c3SafeChar = true) :
    GenerateKindle.simple_markdown_to_html
        (joinNl (items.map fun p => p.1 ++ lc ". " ++ p.2)) =
      lc "<ul>" ++ joinNl (items.map fun p => lc "<li>" ++ p.2 ++ lc "</li>") ++
        lc "</ul>" := by
  obtain ⟨i, is, rfl⟩ : ∃ i is, items = i :: is := by
    cases items with
    | nil => exact absurd rfl hne
    | cons i is => exact ⟨i, is, rfl⟩
  have hImem : ∀ c : Char, c.isDigit = false → c3SafeChar c = false →
      c ∉ lc ". " → ¬ c = '\n' →
      c ∉ joinNl ((i :: is).map fun p => p.1 ++ lc ". " ++ p.2) := by
    intro c h1 h2 h3 h4 hm
    rcases mem_joinNl _ _ hm with he | ⟨l, hl, hcl⟩
    · exact h4 he
    · obtain ⟨p, hp, rfl⟩ := List.mem_map.mp hl
      rcases List.mem_append.mp hcl with hcl1 | hcl2
      · rcases List.mem_append.mp hcl1 with hcn | hcd
        · have := List.all_eq_true.mp (hnum p hp).2 c hcn
          rw [h1] at this
          exact absurd this (by decide)
        · exact h3 hcd
      · have := List.all_eq_true.mp (htxt p hp) c hcl2
        rw [h2] at this
        exact absurd this (by decide)
  have hhash : '#' ∉ joinNl ((i :: is).map fun p => p.1 ++ lc ". " ++ p.2) :=
    hImem '#' (by decide) (by decide) (by decide) (by decide)
  have hH1 := subLines_headerLine_id_of_no_hash 1 _ (by decide) hhash
  have hH2 := subLines_headerLine_id_of_no_hash 2 _ (by decide) hhash
  have hH3 := subLines_headerLine_id_of_no_hash 3 _ (by decide) hhash
  have hH4 := subLines_headerLine_id_of_no_hash 4 _ (by decide) hhash
  have hH5 := subLines_headerLine_id_of_no_hash 5 _ (by decide) hhash
  have hbtI : '`' ∉ joinNl ((i :: is).map fun p => p.1 ++ lc ". " ++ p.2) :=
    hImem '`' (by decide) (by decide) (by decide) (by decide)
  have hstI : '*' ∉ joinNl ((i :: is).map fun p => p.1 ++ lc ". " ++ p.2) :=
    hImem '*' (by decide) (by decide) (by decide) (by decide)
  have hlbI : '[' ∉ joinNl ((i :: is).map fun p => p.1 ++ lc ". " ++ p.2) :=
    hImem '[' (by decide) (by decide) (by decide) (by decide)
  have hfenceI := subScan_fence_id fenceRepl _ hbtI
  have hinlineI := subScan_inline_id _ hbtI
  have hd3I : subScan (tryDelim (lc "***") (lc "<strong><em>") (lc "</em></strong>"))
      (joinNl ((i :: is).map fun p => p.1 ++ lc ". " ++ p.2)) =
      joinNl ((i :: is).map fun p => p.1 ++ lc ". " ++ p.2) :=
    subScan_delim_id '*' (lc "**") _ _ _ hstI
  have hd2I : subScan (tryDelim (lc "**") (lc "<strong>") (lc "</strong>"))
      (joinNl ((i :: is).map fun p => p.1 ++ lc ". " ++ p.2)) =
      joinNl ((i :: is).map fun p => p.1 ++ lc ". " ++ p.2) :=
    subScan_delim_id '*' (lc "*") _ _ _ hstI
  have hd1I : subScan (tryDelim (lc "*") (lc "<em>") (lc "</em>"))
      (joinNl ((i :: is).map fun p => p.1 ++ lc ". " ++ p.2)) =
      joinNl ((i :: is).map fun p => p.1 ++ lc ". " ++ p.2) :=
    subScan_delim_id '*' [] _ _ _ hstI
  have hlinkI := subScan_link_id _ hlbI
  have hlinesI : ∀ l ∈ (i :: is).map (fun p => p.1 ++ lc ". " ++ p.2), '\n' ∉ l := by
    intro l hl
    obtain ⟨p, hp, rfl⟩ := List.mem_map.mp hl
    exact not_mem_append _ _ _ (not_mem_append _ _ _
      (fun hm => absurd (List.all_eq_true.mp (hnum p hp).2 '\n' hm) (by decide))
      (by decide))
      (fun hm => absurd (List.all_eq_true.mp (htxt p hp) '\n' hm) (by decide))
  have hsplitI : splitOnNl (joinNl ((i :: is).map fun p => p.1 ++ lc ". " ++ p.2)) =
      (i :: is).map (fun p => p.1 ++ lc ". " ++ p.2) :=
    splitOnNl_joinNl _ (by simp) hlinesI
  have hnumI : subLines numberedLine
      (joinNl ((i :: is).map fun p => p.1 ++ lc ". " ++ p.2)) =
      joinNl ((i :: is).map fun p => lc "<li>" ++ p.2 ++ lc "</li>") := by
    unfold subLines
    rw [hsplitI, List.map_map]
    congr 1
    apply List.map_congr_left
    intro p hp
    exact numberedLine_fires p.1 p.2 (hnum p hp).1 (hnum p hp).2
  have hlinesW : ∀ l ∈ (i :: is).map (fun p => lc "<li>" ++ p.2 ++ lc "</li>"),
      '\n' ∉ l := by
    intro l hl
    obtain ⟨p, hp, rfl⟩ := List.mem_map.mp hl
    exact not_mem_append _ _ _ (not_mem_append _ _ _ (by decide)
      (fun hm => absurd (List.all_eq_true.mp (htxt p hp) '\n' hm) (by decide)))
      (by decide)
  have hsplitW : splitOnNl
      (joinNl ((i :: is).map fun p => lc "<li>" ++ p.2 ++ lc "</li>")) =
      (i :: is).map (fun p => lc "<li>" ++ p.2 ++ lc "</li>") :=
    splitOnNl_joinNl _ (by simp) hlinesW
  have hbulW : subLines bulletLine
      (joinNl ((i :: is).map fun p => lc "<li>" ++ p.2 ++ lc "</li>")) =
      joinNl ((i :: is).map fun p => lc "<li>" ++ p.2 ++ lc "</li>") :=
    subLines_congr_id _ _ (by
      rw [hsplitW]
      intro line hl
      obtain ⟨p, hp, rfl⟩ := List.mem_map.mp hl
      refine bulletLine_id _ (fun c hc => ?_)
      rw [show (lc "<li>" ++ p.2 ++ lc "</li>").head? = some '<' from rfl] at hc
      injection hc with hc'
      rw [← hc']
      decide)
  have hmapW : (i :: is).map (fun p => lc "<li>" ++ p.2 ++ lc "</li>") =
      ((i.2 :: is.map fun p => p.2) : List (List Char)).map
        (fun x => lc "<li>" ++ x ++ lc "</li>") := by
    rw [show ((i.2 :: is.map fun p => p.2) : List (List Char)) =
      (i :: is).map (fun p => p.2) from rfl, List.map_map]
    rfl
  have hsafeT : ∀ x ∈ (i.2 :: is.map fun p => p.2), '<' ∉ x := by
    intro x hx
    have hx' : x ∈ (i :: is).map (fun p => p.2) := hx
    obtain ⟨p, hp, rfl⟩ := List.mem_map.mp hx'
    exact fun hm => absurd (List.all_eq_true.mp (htxt p hp) '<' hm) (by decide)
  have hwrapW : subScan tryWrap
      (joinNl ((i :: is).map fun p => lc "<li>" ++ p.2 ++ lc "</li>")) =
      wrap_list_items
        (joinNl ((i :: is).map fun p => lc "<li>" ++ p.2 ++ lc "</li>")) := by
    rw [hmapW]
    exact subScan_wrap_items i.2 (is.map fun p => p.2) hsafeT
  have hdotW : '.' ∉ joinNl ((i :: is).map fun p => lc "<li>" ++ p.2 ++ lc "</li>") := by
    intro hm
    rcases mem_joinNl _ _ hm with he | ⟨l, hl, hcl⟩
    · exact absurd he (by decide)
    · obtain ⟨p, hp, rfl⟩ := List.mem_map.mp hl
      rcases List.mem_append.mp hcl with h1 | h2
      · rcases List.mem_append.mp h1 with h3 | h4
        · exact absurd h3 (by decide)
        · exact absurd (List.all_eq_true.mp (htxt p hp) '.' h4) (by decide)
      · exact absurd h2 (by decide)
  have hwul : wrap_list_items
      (joinNl ((i :: is).map fun p => lc "<li>" ++ p.2 ++ lc "</li>")) =
      lc "<ul>" ++ joinNl ((i :: is).map fun p => lc "<li>" ++ p.2 ++ lc "</li>") ++
        lc "</ul>" :=
    wrap_ul _ hdotW
  have htnl : '\n' ∉ i.2 := fun hm =>
    absurd (List.all_eq_true.mp (htxt i (List.mem_cons_self _ _)) '\n' hm) (by decide)
  have htsnl : ∀ x ∈ (is.map fun p => p.2), '\n' ∉ x := by
    intro x hx
    obtain ⟨p, hp, rfl⟩ := List.mem_map.mp hx
    exact fun hm =>
      absurd (List.all_eq_true.mp (htxt p (List.mem_cons_of_mem _ hp)) '\n' hm)
        (by decide)
  have hW'facts := c9AllLines_facts i.2 (is.map fun p => p.2) htnl htsnl
  have hW'lines : splitOnNl (lc "<ul>" ++
      joinNl ((i :: is).map fun p => lc "<li>" ++ p.2 ++ lc "</li>") ++ lc "</ul>") =
      c9AllLines i.2 (is.map fun p => p.2) := by
    rw [hmapW, c9AllLines_eq i.2 (is.map fun p => p.2)]
    exact splitOnNl_joinNl _ (c9AllLines_ne_nil _ _)
      (fun l hl => (hW'facts l hl).2)
  have hquoteW' : subLines blockquoteLine (lc "<ul>" ++
      joinNl ((i :: is).map fun p => lc "<li>" ++ p.2 ++ lc "</li>") ++ lc "</ul>") =
      lc "<ul>" ++ joinNl ((i :: is).map fun p => lc "<li>" ++ p.2 ++ lc "</li>") ++
        lc "</ul>" :=
    subLines_congr_id _ _ (by
      rw [hW'lines]
      intro line hl
      exact blockquoteLine_id _ (by rw [(hW'facts line hl).1]; decide))
  have hhrW' : subLines hrLine (lc "<ul>" ++
      joinNl ((i :: is).map fun p => lc "<li>" ++ p.2 ++ lc "</li>") ++ lc "</ul>") =
      lc "<ul>" ++ joinNl ((i :: is).map fun p => lc "<li>" ++ p.2 ++ lc "</li>") ++
        lc "</ul>" :=
    subLines_congr_id _ _ (by
      rw [hW'lines]
      intro line hl
      exact hrLine_id_of_mem _ '<'
        (mem_of_head?_eq '<' line (hW'facts line hl).1) (by decide))
  have hpipeW' : '|' ∉ lc "<ul>" ++
      joinNl ((i :: is).map fun p => lc "<li>" ++ p.2 ++ lc "</li>") ++ lc "</ul>" := by
    refine not_mem_append _ _ _ (not_mem_append _ _ _ (by decide) ?_) (by decide)
    intro hm
    rcases mem_joinNl _ _ hm with he | ⟨l, hl, hcl⟩
    · exact absurd he (by decide)
    · obtain ⟨p, hp, rfl⟩ := List.mem_map.mp hl
      rcases List.mem_append.mp hcl with h1 | h2
      · rcases List.mem_append.mp h1 with h3 | h4
        · exact absurd h3 (by decide)
        · exact absurd (List.all_eq_true.mp (htxt p hp) '|' h4) (by decide)
      · exact absurd h2 (by decide)
  have htabW' : convert_tables (lc "<ul>" ++
      joinNl ((i :: is).map fun p => lc "<li>" ++ p.2 ++ lc "</li>") ++ lc "</ul>") =
      lc "<ul>" ++ joinNl ((i :: is).map fun p => lc "<li>" ++ p.2 ++ lc "</li>") ++
        lc "</ul>" :=
    convert_tables_id _ (fun line hl => isTableLine_false_of_no_pipe _
      (fun hm => hpipeW' (mem_of_mem_splitOnChar '\n' _ line hl '|' hm)))
  have hnnW' : splitOnTok (lc "\n\n") (lc "<ul>" ++
      joinNl ((i :: is).map fun p => lc "<li>" ++ p.2 ++ lc "</li>") ++ lc "</ul>") =
      none := by
    apply splitOnTok_eq_none
    rw [hmapW, c9AllLines_eq i.2 (is.map fun p => p.2)]
    refine containsTok_nn_joinNl _ (fun l hl => ⟨?_, (hW'facts l hl).2⟩)
    intro he
    have h1 := (hW'facts l hl).1
    rw [he] at h1
    exact absurd h1 (by simp)
  have hparasW' : splitParas (lc "<ul>" ++
      joinNl ((i :: is).map fun p => lc "<li>" ++ p.2 ++ lc "</li>") ++ lc "</ul>") =
      [lc "<ul>" ++ joinNl ((i :: is).map fun p => lc "<li>" ++ p.2 ++ lc "</li>") ++
        lc "</ul>"] :=
    splitParas_single _ hnnW'
  have hlastW' : (lc "<ul>" ++
      joinNl ((i :: is).map fun p => lc "<li>" ++ p.2 ++ lc "</li>") ++
        lc "</ul>").getLast? = some '>' := by
    rw [getLast?_append_right _ _ (show (lc "</ul>" : List Char) ≠ [] from by decide)]
    decide
  have hstripW' : pyStrip (lc "<ul>" ++
      joinNl ((i :: is).map fun p => lc "<li>" ++ p.2 ++ lc "</li>") ++ lc "</ul>") =
      lc "<ul>" ++ joinNl ((i :: is).map fun p => lc "<li>" ++ p.2 ++ lc "</li>") ++
        lc "</ul>" :=
    pyStrip_id _
      (fun c hc => by
        rw [show (lc "<ul>" ++
          joinNl ((i :: is).map fun p => lc "<li>" ++ p.2 ++ lc "</li>") ++
            lc "</ul>").head? = some '<' from rfl] at hc
        injection hc with hc'
        rw [← hc']
        decide)
      (fun c hc => by
        rw [hlastW'] at hc
        injection hc with hc'
        rw [← hc']
        decide)
  have hparaW' : paraF (lc "<ul>" ++
      joinNl ((i :: is).map fun p => lc "<li>" ++ p.2 ++ lc "</li>") ++ lc "</ul>") =
      lc "<ul>" ++ joinNl ((i :: is).map fun p => lc "<li>" ++ p.2 ++ lc "</li>") ++
        lc "</ul>" :=
    paraF_id_lt _ (single_isPrefixOf_of_head '<' _ rfl) hstripW'
  unfold GenerateKindle.simple_markdown_to_html
  rw [hH1, hH2, hH3, hH4, hH5, hfenceI, hinlineI, hd3I, hd2I, hd1I, hlinkI,
    hnumI, hbulW, hwrapW, hwul, hquoteW', hhrW', htabW', hparasW',
    List.map_cons, List.map_nil, hparaW']
  rfl

theorem c9_witness :
    (([(lc "1", lc "first"), (lc "2", lc "second")] :
        List (List Char × List Char)) ≠ [] ∧
      (∀ p ∈ ([(lc "1", lc "first"), (lc "2", lc "second")] :
        List (List Char × List Char)), p.1 ≠ [] ∧ p.1.all Char.isDigit = true) ∧
      (∀ p ∈ ([(lc "1", lc "first"), (lc "2", lc "second")] :
        List (List Char × List Char)), p.2.all c3SafeChar = true)) ∧
    GenerateKindle.simple_markdown_to_html
        (joinNl (([(lc "1", lc "first"), (lc "2", lc "second")] :
          List (List Char × List Char)).map fun p => p.1 ++ lc ". " ++ p.2)) =
      lc "<ul>" ++ joinNl (([(lc "1", lc "first"), (lc "2", lc "second")] :
          List (List Char × List Char)).map fun p =>
            lc "<li>" ++ p.2 ++ lc "</li>") ++ lc "</ul>" :=
  ⟨⟨by decide, by decide, by decide⟩,
    c9_numbered_list_ul [(lc "1", lc "first"), (lc "2", lc "second")]
      (by decide) (by decide) (by decide)⟩
